import Mathlib

/-!
Verification of the top-down beam-search auto-scheduler
(`AutoScheduleTopDown.cpp`).

This file gives a shallow embedding of the scheduler's core data model and
algorithms — the function DAG, the partial-schedule tree, the bounds
propagator `get_bounds`, the cost model, the child enumerators
(`inline_func`, `compute_here`, `compute_in_tiles`, `generate_children`),
tile enumeration (`generate_tilings`) and the beam-search frontier
trimming — and proves or refutes the specification's claims about them.

Modelling conventions:
* a `Function` handle is represented by its index in the DAG's node list
  (nodes are in reverse realization order, so consumers have smaller
  indices than their producers);
* C++ `double` values are modelled as `ℚ`; the host library's `std::log`
  is an abstract parameter `rlog : ℚ → ℚ` threaded through the cost model;
* symbolic interval bounds (host `Expr` values whose only free variables
  are the consumer's `name.i.min` / `name.i.max` region variables after
  parameter-estimate substitution) are modelled by the little expression
  language `BExpr`; `substitute` + `simplify` + `as_const_int` is modelled
  by total evaluation against the consumer's concrete region, returning
  `none` where the C++ asserts would fire;
* fallible code paths (`user_assert` / `internal_assert` / out-of-range
  vector accesses) are modelled with `Option`;
* mutually-recursive tree walks whose C++ termination is by pointer
  structure are given explicit fuel where Lean's structural recursion does
  not apply; fuel exhaustion returns `none` and theorems either hold for
  every fuel or take success as a hypothesis;
* the memoization table `PartialScheduleNode::bounds` is part of the tree
  data (the code seeds it explicitly in `compute_here` and
  `compute_in_tiles`); implicit cache writes by `get_bounds` itself are
  not modelled since they are semantically transparent for a fixed tree.
-/

/-- Symbolic bound expression in a consumer's region variables: `vmin i` /
`vmax i` stand for the variables `consumer.i.min` / `consumer.i.max` of
`FunctionDAG::Node::region`; everything else has been reduced to integer
arithmetic by parameter-estimate substitution. -/
inductive BExpr where
  | lit (v : Int)
  | vmin (i : Nat)
  | vmax (i : Nat)
  | add (a b : BExpr)
  | sub (a b : BExpr)
  | mul (a b : BExpr)
deriving DecidableEq, Repr

/-- Evaluation of a `BExpr` against a concrete consumer region, modelling
`simplify(substitute(s, e))` followed by `as_const_int`: the substitution
map `s` sends `consumer.i.min ↦ region[i].first` and
`consumer.i.max ↦ region[i].second`; a region variable out of range means
the expression does not simplify to a constant, so `none`. -/
def BExpr.eval (env : List (Int × Int)) : BExpr → Option Int
  | .lit v => some v
  | .vmin i => (env.get? i).map (·.1)
  | .vmax i => (env.get? i).map (·.2)
  | .add a b => do pure ((← a.eval env) + (← b.eval env))
  | .sub a b => do pure ((← a.eval env) - (← b.eval env))
  | .mul a b => do pure ((← a.eval env) * (← b.eval env))

/-- One node of `FunctionDAG`: per-point cost coefficients of a pipeline
function, together with the host `Function` metadata the scheduler
queries (`dimensions()`, `args()`, `schedule().estimates()`).  An
estimate entry `(var, min, extent)` models one
`Bound` from `f.schedule().estimates()` whose `min`/`extent` are integer
constants. -/
structure FNode where
  compute : ℚ
  compute_if_inlined : ℚ
  memory : ℚ
  dims : Nat
  args : List String
  estimates : List (String × Int × Int)
deriving DecidableEq, Repr

/-- One edge of `FunctionDAG`: the region required of `producer` in terms
of a symbolic region of `consumer`, and the number of calls the consumer
makes per point. -/
structure FEdge where
  producer : Nat
  consumer : Nat
  bounds : List (BExpr × BExpr)
  calls : Int
deriving DecidableEq, Repr

/-- The function DAG.  Functions are identified with their index in
`nodes`; nodes are in reverse realization order (index 0 is an output,
consumers precede producers). -/
structure FunctionDAG where
  nodes : List FNode
  edges : List FEdge
deriving DecidableEq, Repr

/-- Outgoing edges of `f` (`FunctionDAG::outgoing_edges.at(f)`), in edge
insertion order. -/
def FunctionDAG.outgoing (dag : FunctionDAG) (f : Nat) : List FEdge :=
  dag.edges.filter (fun e => e.producer == f)

/-- Node lookup (`FunctionDAG::node_map.at(f)`). -/
def FunctionDAG.nodeAt (dag : FunctionDAG) (f : Nat) : Option FNode :=
  dag.nodes.get? f

/-- The box over which a function is touched, with the minimum possible
number of evaluated points and minimum possible compute cost
(`PartialScheduleNode::Bound`). -/
structure PBound where
  region : List (Int × Int)
  min_points : Int
  min_cost : ℚ
deriving DecidableEq, Repr

/-- Value-initialized `Bound`, produced by `std::map::operator[]` on a
missing key. -/
def PBound.default : PBound := ⟨[], 0, 0⟩

/-- A node of the partial-schedule tree (`PartialScheduleNode`): one
portion of the loop nest of `func` (`none` is the root sentinel, i.e. a
`Function` handle with undefined contents), the loop extents `size`, the
children inside the loop body, the functions inlined into this innermost
loop with their call counts, the functions realized (`store_at`) here, and
the memoized bounds table. -/
inductive PSNode where
  | mk (func : Option Nat) (innermost : Bool) (tileable : Bool)
       (size : List Int) (children : List PSNode)
       (inlined : List (Nat × Int)) (store_at : List Nat)
       (bounds : List (Nat × PBound))
deriving Repr

def PSNode.func : PSNode → Option Nat
  | .mk f _ _ _ _ _ _ _ => f

def PSNode.innermost : PSNode → Bool
  | .mk _ i _ _ _ _ _ _ => i

def PSNode.tileable : PSNode → Bool
  | .mk _ _ t _ _ _ _ _ => t

def PSNode.size : PSNode → List Int
  | .mk _ _ _ s _ _ _ _ => s

def PSNode.children : PSNode → List PSNode
  | .mk _ _ _ _ c _ _ _ => c

def PSNode.inlined : PSNode → List (Nat × Int)
  | .mk _ _ _ _ _ il _ _ => il

def PSNode.store_at : PSNode → List Nat
  | .mk _ _ _ _ _ _ sa _ => sa

def PSNode.bounds : PSNode → List (Nat × PBound)
  | .mk _ _ _ _ _ _ _ b => b

/-- Root test (`PartialScheduleNode::is_root`): the root sentinel carries
no function handle. -/
def PSNode.is_root (n : PSNode) : Bool := n.func.isNone

-- Structural equality of schedule trees, standing in for the C++
-- pointer identity tests on nodes (`compute_site[f] != this`).
mutual
def PSNode.beq : PSNode → PSNode → Bool
  | .mk f1 i1 t1 s1 c1 il1 sa1 b1, .mk f2 i2 t2 s2 c2 il2 sa2 b2 =>
    f1 == f2 && i1 == i2 && t1 == t2 && s1 == s2 && PSNode.beqList c1 c2 &&
    il1 == il2 && sa1 == sa2 && b1 == b2
def PSNode.beqList : List PSNode → List PSNode → Bool
  | [], [] => true
  | a :: as, b :: bs => PSNode.beq a b && PSNode.beqList as bs
  | _, _ => false
end

instance : BEq PSNode := ⟨PSNode.beq⟩

/-- Association-list lookup used in place of `std::map::find`. -/
def alookup {α : Type} (l : List (Nat × α)) (k : Nat) : Option α :=
  (l.find? (fun p => p.1 == k)).map (·.2)

/-- Association-list insert-or-assign used in place of
`std::map::operator[] = v`. -/
def ainsert {α : Type} (l : List (Nat × α)) (k : Nat) (v : α) : List (Nat × α) :=
  if (l.find? (fun p => p.1 == k)).isSome then
    l.map (fun p => if p.1 == k then (k, v) else p)
  else l ++ [(k, v)]

/-- Ceiling division `(a + b - 1) / b` as the C++ source writes it for
positive operands. -/
def ceilDiv (a b : Int) : Int := (a + b - 1) / b

/-- Power-of-two test on an integer (used only to state tiling
properties). -/
def isPow2 (x : Int) : Bool := x == (2 : Int) ^ (x.toNat.log2)

/-- First inner sweep of `generate_tilings` when splitting is allowed:
`for (outer = 1; outer <= s[d]; outer *= 2)` with
`inner = (s[d] + outer - 1) / outer`; `continue` on the trivial
combinations, `break` when `outer > inner` or (innermost dimension)
`inner < 16`.  `fuel` bounds the doubling iteration count. -/
def tilingLoop1 (sd : Int) (d : Nat) (is_one is_full : Bool) (t : List Int) :
    Nat → Int → List (List Int)
  | 0, _ => []
  | fuel+1, outer =>
    if outer ≤ sd then
      let inr := (sd + outer - 1) / outer
      if is_one && outer == 1 then
        tilingLoop1 sd d is_one is_full t fuel (outer * 2)
      else if is_full && outer == sd then
        tilingLoop1 sd d is_one is_full t fuel (outer * 2)
      else if outer > inr || (decide (d = 0) && decide (inr < 16)) then []
      else (t ++ [outer]) :: tilingLoop1 sd d is_one is_full t fuel (outer * 2)
    else []

/-- Second inner sweep of `generate_tilings` when splitting is allowed:
`for (inner = 1; inner < s[d]; inner *= 2)` with
`outer = (s[d] + inner - 1) / inner`; `continue` on the trivial
combinations, `break` when `inner >= outer`. -/
def tilingLoop2 (sd : Int) (is_one is_full : Bool) (t : List Int) :
    Nat → Int → List (List Int)
  | 0, _ => []
  | fuel+1, inr =>
    if inr < sd then
      let outer := (sd + inr - 1) / inr
      if is_one && outer == 1 then
        tilingLoop2 sd is_one is_full t fuel (inr * 2)
      else if is_full && outer == sd then
        tilingLoop2 sd is_one is_full t fuel (inr * 2)
      else if inr ≥ outer then []
      else (t ++ [outer]) :: tilingLoop2 sd is_one is_full t fuel (inr * 2)
    else []

/-- Tile-shape enumeration (`generate_tilings(s, d, allow_splits)`).  The
C++ recursion parameter `d` counts down to `-1`; here `dd = d + 1`, so the
top-level call `generate_tilings(s, s.size() - 1, allow)` becomes
`generate_tilings s allow s.length`.  Each recursive level appends one
factor for dimension `d = dd - 1`.  The inner doubling loops get fuel
`s[d].toNat + 1`, which is enough for the doubling to pass `s[d]`. -/
def tilingsForDim (s : List Int) (allow_splits : Bool) (d : Nat)
    (t : List Int) : List (List Int) :=
  let sd := s.getD d 0
  let trivial_check := d + 1 == s.length
  let is_one := trivial_check && t.all (fun x => x == 1)
  let is_full := trivial_check &&
    (t.zip (s.take d)).all (fun p => p.1 == p.2)
  if !allow_splits then
    (if !is_one then [t ++ [(1 : Int)]] else []) ++
    (if sd != 1 && !is_full then [t ++ [sd]] else [])
  else
    tilingLoop1 sd d is_one is_full t (sd.toNat + 1) 1 ++
    tilingLoop2 sd is_one is_full t (sd.toNat + 1) 1

def generate_tilings (s : List Int) (allow_splits : Bool) : Nat → List (List Int)
  | 0 => [[]]
  | dd+1 =>
    (generate_tilings s allow_splits dd).foldl
      (fun result t => result ++ tilingsForDim s allow_splits dd t) []

/-- Indexed option-valued loop `for (i = 0; i < n; i++) xs.push_back(g(i))`
where any iteration may fail (a firing assert / out-of-range access):
returns the collected list or `none`. -/
def optRange {α : Type} (g : Nat → Option α) : Nat → Option (List α)
  | 0 => some []
  | n+1 => do pure ((← optRange g n) ++ [← g n])

/-- Per-dimension combination of an accumulated region with the footprint
demanded through one more outgoing edge, exactly as the loop body of
`PartialScheduleNode::get_bounds` does it: a dimension beyond the current
accumulator is pushed, an existing dimension is updated to
`(min(first, imin), min(second, imax))` — note `min` on **both**
endpoints. -/
def mergeFootprint : List (Int × Int) → List (Int × Int) → List (Int × Int)
  | [], fp => fp
  | acc, [] => acc
  | a :: as, v :: vs => (min a.1 v.1, min a.2 v.2) :: mergeFootprint as vs

/-- Integer footprint demanded of the producer through edge `e` given the
consumer's concrete region: every symbolic edge bound is evaluated
(`simplify(substitute(s, ·))` + `as_const_int`) per producer dimension. -/
def edgeFootprint (e : FEdge) (dims : Nat) (creg : List (Int × Int)) :
    Option (List (Int × Int)) :=
  optRange (fun i => do
    let ib ← e.bounds.get? i
    let imin ← ib.1.eval creg
    let imax ← ib.2.eval creg
    pure (imin, imax)) dims

/-- The total bounds required of function `f` for one representative
iteration of this loop (`PartialScheduleNode::get_bounds`).  The memo
table is consulted first; at the root an output function uses the user's
estimates (`none` models the `user_assert` on a missing estimate);
otherwise the footprints of all outgoing edges are combined with
`mergeFootprint`.  `fuel` bounds the recursion into consumers (in a
well-formed DAG consumers have smaller indices, so `fuel = f + 1`
suffices). -/
def PSNode.get_bounds (n : PSNode) (dag : FunctionDAG) : Nat → Nat → Option PBound
  | 0, _ => none
  | fuel+1, f =>
    match alookup n.bounds f with
    | some b => some b
    | none =>
      match dag.nodeAt f with
      | none => none
      | some node =>
        if (dag.outgoing f).isEmpty && n.is_root then
          let min_points := node.estimates.foldl (fun acc b => acc * b.2.2) 1
          match optRange (fun i => do
              let a ← node.args.get? i
              let est ← ((node.estimates.reverse.find? (fun b => b.1 == a)).map (·.2))
              pure (est.1, est.1 + est.2 - 1)) node.dims with
          | none => none
          | some region =>
            some ⟨region, min_points, (min_points : ℚ) * node.compute⟩
        else
          if (dag.outgoing f).isEmpty then none
          else do
            let rc ← (dag.outgoing f).foldlM
              (fun (acc : List (Int × Int) × Int) e => do
                let cb ← n.get_bounds dag fuel e.consumer
                let fp ← edgeFootprint e node.dims cb.region
                pure (mergeFootprint acc.1 fp, acc.2 + cb.min_points * e.calls))
              ([], 0)
            let region := rc.1
            let calls_if_inlined := rc.2
            let exts ← optRange
              (fun i => (region.get? i).map (fun p => p.2 - p.1 + 1)) node.dims
            let points_if_realized := exts.foldl (· * ·) 1
            if region.isEmpty then none
            else
              pure ⟨region, min points_if_realized calls_if_inlined,
                    min ((points_if_realized : ℚ) * node.compute)
                        ((calls_if_inlined : ℚ) * node.compute_if_inlined)⟩

-- Does this loop nest (or some node in it) reference `f`?
-- (`PartialScheduleNode::calls`): some child calls `f`, or some outgoing
-- edge of `f` has this node's own function or one of its inlined functions
-- as consumer.
mutual
def PSNode.calls (dag : FunctionDAG) (f : Nat) : PSNode → Bool
  | .mk fn _ _ _ c il _ _ =>
    PSNode.callsList dag f c ||
    (dag.outgoing f).any (fun e =>
      fn == some e.consumer || (il.find? (fun p => p.1 == e.consumer)).isSome)
def PSNode.callsList (dag : FunctionDAG) (f : Nat) : List PSNode → Bool
  | [] => false
  | x :: xs => PSNode.calls dag f x || PSNode.callsList dag f xs
end

-- Is `f` computed somewhere in this subtree?
-- (`PartialScheduleNode::computes`): as this node's own function, inlined
-- here, or in some child.
mutual
def PSNode.computes (f : Nat) : PSNode → Bool
  | .mk fn _ _ _ c il _ _ =>
    (!(fn == (none : Option Nat)) && fn == some f) ||
    (il.find? (fun p => p.1 == f)).isSome ||
    PSNode.computesList f c
def PSNode.computesList (f : Nat) : List PSNode → Bool
  | [] => false
  | x :: xs => PSNode.computes f x || PSNode.computesList f xs
end

-- Copy of the tree with `f` inlined
-- (`PartialScheduleNode::inline_func`): children that call `f` are replaced
-- by their inlined copies, the rest are shared unchanged; at an innermost
-- leaf, the call count of `f` is accumulated over `f`'s outgoing edges
-- (`inlined[consumer] * e.calls`, plus `e.calls` when the consumer is this
-- node's own function) and recorded when nonzero.
mutual
def PSNode.inline_func (dag : FunctionDAG) (f : Nat) : PSNode → PSNode
  | .mk fn im tl sz c il sa bd =>
    let c' := PSNode.inline_funcList dag f c
    let il' :=
      if im then
        let cl := (dag.outgoing f).foldl (fun acc e =>
          let acc := match alookup il e.consumer with
            | some v => acc + v * e.calls
            | none => acc
          if fn == some e.consumer then acc + e.calls else acc) 0
        if cl != 0 then ainsert il f cl else il
      else il
    .mk fn im tl sz c' il' sa bd
def PSNode.inline_funcList (dag : FunctionDAG) (f : Nat) : List PSNode → List PSNode
  | [] => []
  | x :: xs =>
    (if PSNode.calls dag f x then PSNode.inline_func dag f x else x) ::
    PSNode.inline_funcList dag f xs
end

/-- Site the computation of `f` directly inside this loop
(`PartialScheduleNode::compute_here`): append a fresh innermost, tileable
leaf for `f` whose loop extents cover the bounds required here, and seed
the leaf's memo table with a single-point bound for `f`. -/
def PSNode.compute_here (n : PSNode) (dag : FunctionDAG) (f : Nat) (fuel : Nat) :
    Option PSNode := do
  let b ← n.get_bounds dag fuel f
  let node ← dag.nodeAt f
  let szs ← optRange
    (fun i => (b.region.get? i).map (fun p => p.2 - p.1 + 1)) node.dims
  let spreg ← optRange
    (fun i => (b.region.get? i).map (fun p => (p.1, p.1))) node.dims
  let single_point : PBound := ⟨spreg, 1, node.compute⟩
  let leaf : PSNode := .mk (some f) true true szs [] [] [] [(f, single_point)]
  pure (.mk n.func n.innermost n.tileable n.size (n.children ++ [leaf])
        n.inlined n.store_at n.bounds)

/-- Ordered-set insertion modelling `std::set<Function>::insert`. -/
def sinsert : List Nat → Nat → List Nat
  | [], k => [k]
  | x :: xs, k =>
    if k < x then k :: x :: xs
    else if k == x then x :: xs
    else x :: sinsert xs k

/-- All possible ways to compute `f` in tiles of this loop nest
(`PartialScheduleNode::compute_in_tiles(f, dag, parent, in_realization)`).
The first candidate always places the computation directly inside this
loop; a tileable node additionally tries every tiling from
`generate_tilings` (with the computation at the outer tile, and — outside
a realization — the storage here but the computation further in); when
exactly one child calls `f` the computation is pushed into that child,
optionally keeping storage here.  `fuel` bounds the tree recursion,
`bfuel` the `get_bounds` recursion. -/
def tileStep (dag : FunctionDAG) (bfuel : Nat)
    (rec : PSNode → Nat → Option PSNode → Bool → Option (List PSNode))
    (n : PSNode) (f : Nat) (parent : Option PSNode) (in_realization : Bool)
    (acc : List PSNode) (t : List Int) : Option (List PSNode) := do
  let pb ← parent
  if pb.is_root && decide (t.foldl (· * ·) 1 < 16) then
    -- skip root-level tilings with insufficient parallelism
    pure acc
  else do
    let fn ← n.func
    -- a 1x1x1... inner tile inheriting the children and maps
    let innerBounds := if (alookup n.bounds fn).isSome then n.bounds
      else n.bounds ++ [(fn, PBound.default)]
    let bf := (alookup n.bounds fn).getD PBound.default
    let inner : PSNode := .mk n.func n.innermost n.tileable
      (← (List.range t.length).foldlM (fun sz i => do
          let osz ← n.size.get? i
          let factor ← t.get? i
          pure (sz.set i ((osz + factor - 1) / factor)))
        (List.replicate n.size.length (1 : Int)))
      n.children n.inlined n.store_at innerBounds
    let outerSize ← (List.range t.length).foldlM (fun sz i => do
        let factor ← t.get? i
        pure (sz.set i factor)) n.size
    let pbnd ← pb.get_bounds dag bfuel fn
    let newRegion ← (List.range t.length).foldlM (fun reg i => do
        let p ← pbnd.region.get? i
        let factor ← t.get? i
        let extent := ceilDiv (p.2 - p.1 + 1) factor
        pure (reg.set i (p.1, p.1 + extent - 1))) bf.region
    let newBf : PBound := ⟨newRegion, bf.min_points, bf.min_cost⟩
    let outer : PSNode := .mk n.func false n.tileable outerSize
      [inner] [] [] [(fn, newBf)]
    -- site the computation inside the outer loop
    let cah ← outer.compute_here dag f bfuel
    let cah := if !in_realization then
        .mk cah.func cah.innermost cah.tileable cah.size cah.children
          cah.inlined (sinsert cah.store_at f) cah.bounds
      else cah
    let acc := acc ++ [cah]
    if !in_realization then do
      -- store here, but compute further in
      let store_at_here : PSNode := .mk outer.func outer.innermost
        outer.tileable outer.size outer.children outer.inlined
        (sinsert outer.store_at f) outer.bounds
      let v ← rec inner f (some store_at_here) true
      pure (acc ++ v.map (fun nn =>
        let nn2 : PSNode := .mk nn.func nn.innermost false nn.size
          nn.children nn.inlined nn.store_at nn.bounds
        .mk store_at_here.func store_at_here.innermost
          store_at_here.tileable store_at_here.size [nn2]
          store_at_here.inlined store_at_here.store_at
          store_at_here.bounds))
    else
      pure acc

def childPushStep (dag : FunctionDAG) (bfuel : Nat)
    (rec : PSNode → Nat → Option PSNode → Bool → Option (List PSNode))
    (n : PSNode) (f : Nat) (ci : Nat) (in_realization : Bool)
    (acc : List PSNode) (store_here : Bool) : Option (List PSNode) := do
  if store_here && (in_realization || n.is_root) then pure acc
  else do
    let cnode ← n.children.get? ci
    let v ← rec cnode f (some n) store_here
    pure (acc ++ v.map (fun nn =>
      let sa := if store_here then sinsert n.store_at f else n.store_at
      .mk n.func n.innermost n.tileable n.size (n.children.set ci nn)
        n.inlined sa n.bounds))

def PSNode.compute_in_tiles (dag : FunctionDAG) (bfuel : Nat) :
    Nat → PSNode → Nat → Option PSNode → Bool → Option (List PSNode)
  | 0, _, _, _, _ => none
  | fuel+1, n, f, parent, in_realization => do
    -- figure out which child we can fuse this into
    let callerIdx := (List.range n.children.length).filter
      (fun i => ((n.children.get? i).map (fun c => PSNode.calls dag f c)).getD false)
    let child : Option Nat := callerIdx.getLast?
    let called_by_multiple_children := decide (2 ≤ callerIdx.length)
    -- place the computation inside this loop
    let r0 ← n.compute_here dag f bfuel
    let r0 := if !in_realization then
        .mk r0.func r0.innermost r0.tileable r0.size r0.children r0.inlined
          (sinsert r0.store_at f) r0.bounds
      else r0
    let result := [r0]
    if (dag.outgoing f).isEmpty then
      -- can't tile outputs
      pure result
    else do
      let result ←
        if n.tileable then
          (generate_tilings n.size (!in_realization) n.size.length).foldlM
            (tileStep dag bfuel
              (fun nn ff pp ii => PSNode.compute_in_tiles dag bfuel fuel nn ff pp ii)
              n f parent in_realization) result
        else pure result
      match child, called_by_multiple_children with
      | some ci, false =>
        -- push the computation into the single calling child
        do
          let acc ← childPushStep dag bfuel
            (fun nn ff pp ii => PSNode.compute_in_tiles dag bfuel fuel nn ff pp ii)
            n f ci in_realization result false
          childPushStep dag bfuel
            (fun nn ff pp ii => PSNode.compute_in_tiles dag bfuel fuel nn ff pp ii)
            n f ci in_realization acc true
      | _, _ => pure result


/-- Product of region extents, `for (auto p : region) points *= p.second -
p.first + 1`, as the cost model computes the number of points of a
realized function. -/
def regionPoints (reg : List (Int × Int)) : ℚ :=
  reg.foldl (fun acc p => acc * ((p.2 - p.1 + 1 : Int) : ℚ)) 1

/-- Locality discount due to assumed storage folding: starting from the
fold-bookkeeping floor `1.01`, scan the dimensions from innermost
outwards and at the first dimension whose computed extent differs from
the realized extent return `computed / realized`. -/
def foldingDiscount (br bc : List (Int × Int)) : ℚ :=
  match (br.zip bc).reverse.find?
      (fun rc => (rc.1.2 - rc.1.1 + 1) != (rc.2.2 - rc.2.1 + 1)) with
  | some rc => ((rc.2.2 - rc.2.1 + 1 : Int) : ℚ) / ((rc.1.2 - rc.1.1 + 1 : Int) : ℚ)
  | none => 1.01

/-- Discount selection in the `store_at` billing: `1` when `f`'s compute
site is this very node, otherwise the folding discount between the bounds
realized here and the bounds computed at the site. -/
def siteDiscount (dag : FunctionDAG) (bfuel : Nat) (n site : PSNode) (f : Nat)
    (br : PBound) : Option ℚ :=
  if site == n then some 1
  else (site.get_bounds dag bfuel f).map (fun bc => foldingDiscount br.region bc.region)

/-- Vectorized iteration count of an innermost loop: `subinstances /
size[0] * (((size[0] + 15) / 16) * 16)` — the innermost extent rounded up
to a multiple of the vector width 16. -/
def innermostSubinstances (ideal s0 : Int) : Int :=
  ideal / s0 * (((s0 + 15) / 16) * 16)

/-- Overcompute factor recorded at an innermost node: the vector-tail
ratio `subinstances / ideal_subinstances` times the boundary-overhead
factor `(size[0] + 0.01) / size[0]`. -/
def overcomputeFactor (ideal s0 : Int) : ℚ :=
  ((innermostSubinstances ideal s0 : Int) : ℚ) / ((ideal : Int) : ℚ) *
    (((s0 : Int) : ℚ) + 1/100) / ((s0 : Int) : ℚ)

/-- Compute-plus-memory bill for one function `f` realized (`store_at`)
at node `n`, lines 361–421 of the cost recursion: `compute_cost =
compute × points × subinstances × overcompute[f]`; `mem_cost = memory ×
(instances × points) × rlog(discount × points)`, added once per outgoing
edge of `f` and then once more together with the compute cost. -/
def billStoreAt (dag : FunctionDAG) (rlog : ℚ → ℚ) (bfuel : Nat) (n : PSNode)
    (compute_site : List (Nat × PSNode)) (overcompute : List (Nat × ℚ))
    (instances subinstances : Int) (f : Nat) : Option ℚ := do
  let br ← n.get_bounds dag bfuel f
  let points := regionPoints br.region
  let node ← dag.nodeAt f
  let compute_cost := node.compute * points * (subinstances : ℚ) *
    ((alookup overcompute f).getD 0)
  let site ← alookup compute_site f
  let discount ← siteDiscount dag bfuel n site f br
  let cost_per_cold_load := rlog (discount * points)
  let num_cold_loads := (instances : ℚ) * points
  let mem_cost := node.memory * num_cold_loads * cost_per_cold_load
  let edgeSum := (dag.outgoing f).foldl (fun acc _ => acc + mem_cost) 0
  pure (edgeSum + mem_cost + compute_cost)

-- The cost recursion (`PartialScheduleNode::cost`): record the compute
-- site of this node's function, multiply the loop extents into the instance
-- count (rounding the innermost extent up to the vector width and recording
-- the overcompute factor), recurse into the children, then bill
-- compute-and-memory cost for every function realized here and compute cost
-- for every function inlined here.  Returns the cost together with the
-- updated `compute_site` and `overcompute` maps.
mutual
def PSNode.cost (dag : FunctionDAG) (rlog : ℚ → ℚ) (bfuel : Nat) :
    PSNode → List (Nat × PSNode) → List (Nat × ℚ) → Int → Option PSNode →
    Option (ℚ × List (Nat × PSNode) × List (Nat × ℚ))
  | n@(.mk _ _ _ _ children _ _ _), compute_site, overcompute, instances,
      parent => do
    let compute_site :=
      if !n.is_root then
        match n.func, parent with
        | some f0, some p =>
          if (alookup compute_site f0).isNone then ainsert compute_site f0 p
          else compute_site
        | _, _ => compute_site
      else compute_site
    let subinstances := n.size.foldl (fun a b => a * b) instances
    let so ←
      if n.innermost then do
        let s0 ← n.size.get? 0
        let f0 ← n.func
        pure (innermostSubinstances subinstances s0,
              ainsert overcompute f0 (overcomputeFactor subinstances s0))
      else pure (subinstances, overcompute)
    let subinstances := so.1
    let overcompute := so.2
    let cres ← PSNode.costList dag rlog bfuel children
      (0, compute_site, overcompute) subinstances n
    let compute_site := cres.2.1
    let overcompute := cres.2.2
    let storeSum ← n.store_at.foldlM (fun (acc : ℚ) f => do
        let b ← billStoreAt dag rlog bfuel n compute_site overcompute instances
          subinstances f
        pure (acc + b)) 0
    let inlineSum ← n.inlined.foldlM (fun (acc : ℚ) p => do
        let node ← dag.nodeAt p.1
        pure (acc + node.compute_if_inlined * (subinstances : ℚ) * ((p.2 : Int) : ℚ)))
      0
    pure (cres.1 + storeSum + inlineSum, compute_site, overcompute)
def PSNode.costList (dag : FunctionDAG) (rlog : ℚ → ℚ) (bfuel : Nat) :
    List PSNode → (ℚ × List (Nat × PSNode) × List (Nat × ℚ)) → Int → PSNode →
    Option (ℚ × List (Nat × PSNode) × List (Nat × ℚ))
  | [], acc, _, _ => some acc
  | x :: xs, acc, subinstances, par => do
    let r ← PSNode.cost dag rlog bfuel x acc.2.1 acc.2.2 subinstances (some par)
    PSNode.costList dag rlog bfuel xs (acc.1 + r.1, r.2.1, r.2.2)
      subinstances par
end

/-- A state of the tree search (`State`): a partial schedule, its cost,
and how many functions have been scheduled so far. -/
structure SchedState where
  root : PSNode
  cost : ℚ
  num_funcs_scheduled : Nat

/-- Cost of a state (`State::calculate_cost`): the root cost recursion
minus the essential minimum cost (`root.get_bounds(f).min_cost`) of every
function scheduled so far. -/
def calculate_cost (dag : FunctionDAG) (rlog : ℚ → ℚ) (bfuel : Nat)
    (root : PSNode) (num : Nat) : Option ℚ := do
  let r ← root.cost dag rlog bfuel [] [] 1 none
  (List.range num).foldlM (fun acc i => do
      let b ← root.get_bounds dag bfuel i
      pure (acc - b.min_cost)) r.1

/-- All legal ways to schedule the next function
(`State::generate_children`): inline it (if it has consumers), or realize
it somewhere via `compute_in_tiles` on the root; each successor gets its
cost from `calculate_cost`.  `none` models a firing `internal_assert`. -/
def generate_children (dag : FunctionDAG) (rlog : ℚ → ℚ) (bfuel tfuel : Nat)
    (s : SchedState) : Option (List SchedState) := do
  if !s.root.is_root then none
  else if s.num_funcs_scheduled == dag.nodes.length then some []
  else do
    let f := s.num_funcs_scheduled
    if (dag.outgoing f).any (fun e => !(s.root.computes e.consumer)) then none
    else do
      let inlineOpt ←
        if !(dag.outgoing f).isEmpty then do
          let r := PSNode.inline_func dag f s.root
          let c ← calculate_cost dag rlog bfuel r (s.num_funcs_scheduled + 1)
          if !(r.computes f) then none
          else pure [SchedState.mk r c (s.num_funcs_scheduled + 1)]
        else pure []
      let tiles ← PSNode.compute_in_tiles dag bfuel tfuel s.root f none false
      let tileStates ← tiles.mapM (fun nn => do
          let c ← calculate_cost dag rlog bfuel nn (s.num_funcs_scheduled + 1)
          if !(nn.computes f) then none
          else pure (SchedState.mk nn c (s.num_funcs_scheduled + 1)))
      pure (inlineOpt ++ tileStates)

/-- Extraction of the top of the cost-ordered priority queue: with
`CompareStates` ordering by `a->cost > b->cost`, `q.top()` is a state of
minimum cost.  Returns that state and the remaining queue. -/
def popMinState : List SchedState → Option (SchedState × List SchedState)
  | [] => none
  | s :: rest =>
    match popMinState rest with
    | none => some (s, [])
    | some (m, r) => if s.cost ≤ m.cost then some (s, rest) else some (m, s :: r)

/-- Frontier trimming in `optimal_schedule`: pop the top of the
cost-ordered queue `beam_size` times into a fresh queue; what is kept are
the `beam_size` lowest-cost states. -/
def trimQueue : Nat → List SchedState → List SchedState
  | 0, _ => []
  | k+1, q =>
    match popMinState q with
    | none => []
    | some (m, r) => m :: trimQueue k r

/-- The states discarded by trimming: the queue after `k` pops. -/
def dropMins : Nat → List SchedState → List SchedState
  | 0, q => q
  | k+1, q =>
    match popMinState q with
    | none => []
    | some (_, r) => dropMins k r

/-- One expansion pass of the beam search: drain the pending queue in
cost order; a state with every function scheduled is returned as the
answer, any other state contributes its children to the next queue. -/
def beamDrain (dag : FunctionDAG) (rlog : ℚ → ℚ) (bfuel tfuel : Nat) (nfuncs : Nat) :
    Nat → List SchedState → List SchedState → Option (SchedState ⊕ List SchedState)
  | 0, _, _ => none
  | fuel+1, pending, q =>
    match popMinState pending with
    | none => some (.inr q)
    | some (s, rest) =>
      if s.num_funcs_scheduled == nfuncs then some (.inl s)
      else
        match generate_children dag rlog bfuel tfuel s with
        | none => none
        | some cs => beamDrain dag rlog bfuel tfuel nfuncs fuel rest (q ++ cs)

/-- The beam-search driver (`optimal_schedule`): each round trims the
frontier to `beam_size` when it is larger, then drains it, expanding
every non-terminal state; the first terminal state popped is returned.
`fuel` bounds the number of rounds. -/
def optimal_schedule (dag : FunctionDAG) (rlog : ℚ → ℚ) (bfuel tfuel : Nat)
    (beam_size : Nat) : Nat → List SchedState → Option SchedState
  | 0, _ => none
  | fuel+1, q =>
    let q := if q.length > beam_size then trimQueue beam_size q else q
    match beamDrain dag rlog bfuel tfuel dag.nodes.length (q.length + 1) q [] with
    | none => none
    | some (.inl s) => some s
    | some (.inr q2) => optimal_schedule dag rlog bfuel tfuel beam_size fuel q2

/-- The default-constructed starting state of the search: an empty root
sentinel, cost `0`, nothing scheduled. -/
def startState : SchedState :=
  SchedState.mk (.mk none false false [] [] [] [] []) 0 0

/-! Concrete example pipelines and auxiliary predicates used in the
theorems below. -/

def stA : SchedState := ⟨.mk none false false [] [] [] [] [], 5, 0⟩

def stB : SchedState := ⟨.mk none false false [] [] [] [] [], 1, 0⟩

def stC : SchedState := ⟨.mk none false false [] [] [] [] [], 3, 0⟩

def exQ : List SchedState := [stA, stB, stC]

/-- Estimate lookup for dimension `i` of a function: `estimates.find(f.args()[i])`
with `std::map` overwrite semantics (the last estimate for a variable
wins). -/
def estLookup (node : FNode) (i : Nat) : Option (Int × Int) :=
  (node.args.get? i).bind
    (fun a => (node.estimates.reverse.find? (fun b => b.1 == a)).map (·.2))

/-- Output node of the one-function example pipeline: one dimension `x`
with estimate `(0, 100)`, unit compute and memory coefficients. -/
def hNodeA : FNode := ⟨1, 0, 1, 1, ["x"], [("x", 0, 100)]⟩

/-- Example DAG with a single output function and no edges. -/
def dagA : FunctionDAG := ⟨[hNodeA], []⟩

/-- An empty root sentinel node. -/
def rootA : PSNode := .mk none false false [] [] [] [] []

/-- Output node of the two-function example pipeline (consumer `h`). -/
def hNodeB : FNode := ⟨1, 0, 1, 1, ["x"], [("x", 0, 100)]⟩

/-- Producer node of the two-function example pipeline (`g`, one consumer). -/
def gNodeB : FNode := ⟨1, 1, 1, 1, ["x"], []⟩

/-- Example DAG `g → h` with a single pointwise edge. -/
def dagB : FunctionDAG := ⟨[hNodeB, gNodeB], [⟨1, 0, [(.vmin 0, .vmax 0)], 1⟩]⟩

/-- A concrete loop node for `g` with a memoized bound of five points. -/
def n0 : PSNode :=
  .mk (some 1) false false [] [] [] [] [(1, ⟨[((0:Int), (4:Int))], 5, 5⟩)]

/-- Call count accumulated by `inline_func` at an innermost leaf, written
as the specification states it: the sum over `f`'s outgoing edges of
`inlined[e.consumer] × e.calls`, plus `e.calls` when `e.consumer` is the
node's own function. -/
def inlineCallCount (dag : FunctionDAG) (f : Nat) (n : PSNode) : Int :=
  ((dag.outgoing f).map (fun e =>
    (alookup n.inlined e.consumer).getD 0 * e.calls +
    (if n.func = some e.consumer then e.calls else 0))).sum

/-- An innermost leaf of the two-function pipeline realizing function 0
(`h`) at the root, as `compute_here` builds it. -/
def hLeafB : PSNode :=
  .mk (some 0) true true [100] [] [] [] [(0, ⟨[((0:Int), (0:Int))], 1, 1⟩)]

/-- The schedule tree of `dagB` after scheduling its output at the root:
the root stores `h` and holds the single innermost leaf `hLeafB`. -/
def rootB : PSNode := .mk none false false [] [hLeafB] [] [0] []

/-- An innermost leaf for function 1 (`g`), which references no function
that consumes function 1. -/
def gLeafB : PSNode := .mk (some 1) true true [100] [] [] [] []

-- The schedule-tree invariant claimed by the specification: an innermost
-- node has no children (checked over the whole tree).
mutual
def innermostLeafInv : PSNode → Bool
  | .mk _ im _ _ c _ _ _ => (!im || c.isEmpty) && innermostLeafInvList c
def innermostLeafInvList : List PSNode → Bool
  | [] => true
  | x :: xs => innermostLeafInv x && innermostLeafInvList xs
end

/-- Power of two, in propositional form, for stating tiling factor
shapes. -/
def IsPow2 (x : Int) : Prop := ∃ k : Nat, x = 2 ^ k

/-- The per-dimension property the specification claims of every emitted
tiling: a power-of-two outer factor in `[1, s[i]]` with
`outer ≤ inner = ceil(s[i]/outer)`, and `inner ≥ 16` in the innermost
dimension. -/
def specC6Prop (s t : List Int) : Prop :=
  t.length = s.length ∧ ∀ i, i < t.length →
    isPow2 (t.getD i 0) = true ∧ 1 ≤ t.getD i 0 ∧ t.getD i 0 ≤ s.getD i 0 ∧
    t.getD i 0 ≤ ceilDiv (s.getD i 0) (t.getD i 0) ∧
    (i = 0 → 16 ≤ ceilDiv (s.getD i 0) (t.getD i 0))

/-- What the code actually guarantees per dimension: the factor comes
either from the outer-doubling sweep (a power of two with
`outer ≤ inner` and the vector-width check in dimension 0) or from the
inner-doubling sweep (`outer = ceil(s[i]/inner)` for a power-of-two
`inner < outer`, with no power-of-two or vector-width constraint on the
emitted outer factor). -/
def tilingDimOK (s : List Int) (i : Nat) (x : Int) : Prop :=
  (IsPow2 x ∧ 1 ≤ x ∧ x ≤ s.getD i 0 ∧ x ≤ ceilDiv (s.getD i 0) x ∧
    (i = 0 → 16 ≤ ceilDiv (s.getD i 0) x)) ∨
  (∃ w : Int, IsPow2 w ∧ 1 ≤ w ∧ w < s.getD i 0 ∧
    x = ceilDiv (s.getD i 0) w ∧ w < x)

/-- Example DAG for the bounds-combination behaviour: two outputs `g`
(index 0, estimate extent 11) and `h` (index 1, estimate extent 32) both
consume the producer `f` (index 2) pointwise. -/
def dagC : FunctionDAG :=
  ⟨[⟨1, 0, 1, 1, ["x"], [("x", 0, 11)]⟩,
    ⟨1, 0, 1, 1, ["x"], [("x", 0, 32)]⟩,
    ⟨1, 1, 1, 1, ["x"], []⟩],
   [⟨2, 0, [(.vmin 0, .vmax 0)], 1⟩,
    ⟨2, 1, [(.vmin 0, .vmax 0)], 1⟩]⟩

/-- Containment of one integer region in another, per dimension. -/
def regionContains (big small : List (Int × Int)) : Bool :=
  small.length == big.length &&
  (big.zip small).all (fun p => p.1.1 ≤ p.2.1 && p.2.2 ≤ p.1.2)

/-! Helper lemmas about the embedding's building blocks. -/

theorem optRange_succ {α : Type} (g : Nat → Option α) (n : Nat) :
    optRange g (n+1) =
      (optRange g n).bind (fun xs => (g n).bind (fun x => some (xs ++ [x]))) := rfl

theorem optRange_eq_none_iff {α : Type} (g : Nat → Option α) (n : Nat) :
    optRange g n = none ↔ ∃ i, i < n ∧ g i = none := by
  induction n with
  | zero => simp [optRange]
  | succ n ih =>
    rw [optRange_succ]
    cases h : optRange g n with
    | none =>
      constructor
      · intro _
        obtain ⟨i, hi, hgi⟩ := ih.mp h
        exact ⟨i, by omega, hgi⟩
      · intro _
        rfl
    | some xs =>
      cases hg : g n with
      | none =>
        constructor
        · intro _; exact ⟨n, by omega, hg⟩
        · intro _; rfl
      | some x =>
        constructor
        · intro hcontra; simp at hcontra
        · rintro ⟨i, hi, hgi⟩
          rcases Nat.lt_succ_iff_lt_or_eq.mp hi with hi' | rfl
          · exact absurd (ih.mpr ⟨i, hi', hgi⟩) (by simp [h])
          · exact absurd hgi (by simp [hg])

theorem optRange_eq_some {α : Type} (g : Nat → Option α) (n : Nat) (l : List α)
    (h : optRange g n = some l) : l.length = n ∧ ∀ i, i < n → l.get? i = g i := by
  induction n generalizing l with
  | zero => simp [optRange] at h; simp [← h]
  | succ n ih =>
    simp only [optRange, bind, Option.bind] at h
    cases h1 : optRange g n with
    | none => rw [h1] at h; exact absurd h (by simp)
    | some xs =>
      rw [h1] at h
      cases h2 : g n with
      | none => rw [h2] at h; exact absurd h (by simp)
      | some x =>
        rw [h2] at h
        simp only [pure, Option.some_inj] at h
        obtain ⟨hlen, hget⟩ := ih xs h1
        subst h
        constructor
        · simp [hlen]
        · intro i hi
          rcases Nat.lt_succ_iff_lt_or_eq.mp hi with hi' | rfl
          · rw [List.get?_append (by omega), hget i hi']
          · rw [← hlen, List.get?_concat_length, hlen, h2]

theorem foldl_mul_eq_mul_prod (size : List Int) :
    ∀ a : Int, size.foldl (fun x y => x * y) a = a * size.prod := by
  induction size with
  | nil => intro a; simp
  | cons x xs ih => intro a; simp only [List.foldl_cons, List.prod_cons, ih]; ring

theorem one_le_prod_int (l : List Int) (h : ∀ x ∈ l, 1 ≤ x) : 1 ≤ l.prod := by
  induction l with
  | nil => simp
  | cons x xs ih =>
    simp only [List.prod_cons]
    have hx := h x (by simp)
    have hxs := ih (fun y hy => h y (by simp [hy]))
    nlinarith

theorem ediv_ceil_eq_rat_ceil (s0 : Int) (h : 1 ≤ s0) :
    ((s0 + 15) / 16 : Int) = ⌈(s0 : ℚ) / 16⌉ := by
  have h16 : (0 : Int) < 16 := by norm_num
  have hid := Int.emod_add_ediv (s0 + 15) 16
  have hr0 := Int.emod_nonneg (s0 + 15) (by norm_num : (16:Int) ≠ 0)
  have hr1 := Int.emod_lt_of_pos (s0 + 15) h16
  set q := (s0 + 15) / 16 with hq
  set r := (s0 + 15) % 16 with hr
  symm
  rw [Int.ceil_eq_iff]
  constructor
  · rw [lt_div_iff (by norm_num : (0:ℚ) < 16)]
    have hz : (q - 1) * 16 < s0 := by omega
    exact_mod_cast hz
  · rw [div_le_iff (by norm_num : (0:ℚ) < 16)]
    have hz : s0 ≤ q * 16 := by omega
    exact_mod_cast hz

/-- C5: for every innermost node visited by the cost recursion (loop
extents all positive, positive instance count), the recorded overcompute
factor `overcomputeFactor subinstances size[0]` — with `subinstances =
instances × ∏ size` exactly as `PartialScheduleNode::cost` computes it —
equals `(ceil(size[0]/16) × 16 / size[0]) × ((size[0] + 0.01) / size[0])`;
in particular it is `1.000625` when `size[0] = 16`. -/
theorem C5_overcompute_factor (instances s0 : Int) (size : List Int)
    (hhead : size.head? = some s0) (hs0 : 1 ≤ s0) (hinst : 0 < instances)
    (hall : ∀ x ∈ size, 1 ≤ x) :
    overcomputeFactor (size.foldl (fun a b => a * b) instances) s0 =
      ((⌈(s0 : ℚ) / 16⌉ : ℚ) * 16 / (s0 : ℚ)) * (((s0 : ℚ) + 1/100) / (s0 : ℚ)) ∧
    (s0 = 16 →
      overcomputeFactor (size.foldl (fun a b => a * b) instances) s0 = 1.000625) := by
  obtain ⟨tail, rfl⟩ : ∃ t, size = s0 :: t := by
    cases size with
    | nil => simp at hhead
    | cons a t => simp at hhead; exact ⟨t, by rw [hhead]⟩
  rw [foldl_mul_eq_mul_prod]
  set ideal := instances * (s0 :: tail).prod with hideal
  have htp : 1 ≤ tail.prod := one_le_prod_int tail (fun x hx => hall x (by simp [hx]))
  have hip : 0 < ideal := by
    rw [hideal]
    exact mul_pos hinst (by rw [List.prod_cons]; nlinarith)
  have hdvd : s0 ∣ ideal := by
    rw [hideal, List.prod_cons]; exact ⟨instances * tail.prod, by ring⟩
  obtain ⟨k, hk⟩ := hdvd
  have hs0ne : s0 ≠ 0 := by omega
  have hkval : ideal / s0 = k := by rw [hk]; exact Int.mul_ediv_cancel_left k hs0ne
  have hkpos : 0 < k := by
    rcases lt_or_ge 0 k with hc | hc
    · exact hc
    · exfalso
      have h2 : s0 * k ≤ 0 := mul_nonpos_iff.mpr (Or.inl ⟨by omega, hc⟩)
      have h3 : 0 < s0 * k := hk ▸ hip
      omega
  have hmain : overcomputeFactor ideal s0 =
      ((⌈(s0 : ℚ) / 16⌉ : ℚ) * 16 / (s0 : ℚ)) * (((s0 : ℚ) + 1/100) / (s0 : ℚ)) := by
    rw [overcomputeFactor, innermostSubinstances, hkval, ← ediv_ceil_eq_rat_ceil s0 hs0]
    have hkne : (k : ℚ) ≠ 0 := Int.cast_ne_zero.mpr (by omega)
    have hs0ne' : (s0 : ℚ) ≠ 0 := Int.cast_ne_zero.mpr hs0ne
    have hidq : (ideal : ℚ) = (s0 : ℚ) * (k : ℚ) := by rw [hk]; push_cast; ring
    rw [hidq]
    push_cast
    field_simp
    ring
  refine ⟨hmain, fun h16 => ?_⟩
  rw [hmain, h16]
  norm_num

/-- Witness for C5: a concrete innermost loop of extent 16 with one
instance records overcompute factor exactly 1.000625. -/
theorem C5_overcompute_factor_witness :
    overcomputeFactor (List.foldl (fun a b => a * b) 1 [(16 : Int)]) 16 = 1.000625 :=
  (C5_overcompute_factor 1 16 [(16 : Int)] rfl (by decide) (by decide)
    (by decide)).2 rfl

theorem popMinState_mem_of_rest (q : List SchedState) (m : SchedState)
    (r : List SchedState) (h : popMinState q = some (m, r)) :
    ∀ x ∈ r, x ∈ q := by
  induction q generalizing m r with
  | nil => simp [popMinState] at h
  | cons s rest ih =>
    simp only [popMinState] at h
    cases hr : popMinState rest with
    | none =>
      rw [hr] at h
      simp only [Option.some_inj, Prod.mk.injEq] at h
      obtain ⟨rfl, rfl⟩ := h
      simp
    | some mr =>
      obtain ⟨m1, r1⟩ := mr
      rw [hr] at h
      dsimp only at h
      by_cases hc : s.cost ≤ m1.cost
      · rw [if_pos hc] at h
        simp only [Option.some_inj, Prod.mk.injEq] at h
        obtain ⟨rfl, rfl⟩ := h
        intro x hx; exact List.mem_cons_of_mem _ hx
      · rw [if_neg hc] at h
        simp only [Option.some_inj, Prod.mk.injEq] at h
        obtain ⟨rfl, rfl⟩ := h
        intro x hx
        rcases List.mem_cons.mp hx with rfl | hx'
        · exact List.mem_cons_self _ _
        · exact List.mem_cons_of_mem _ (ih m1 r1 hr x hx')

theorem popMinState_nil_of_none (q : List SchedState)
    (h : popMinState q = none) : q = [] := by
  cases q with
  | nil => rfl
  | cons a b =>
    exfalso
    simp only [popMinState] at h
    cases h2 : popMinState b with
    | none => rw [h2] at h; simp at h
    | some mb =>
      obtain ⟨m1, r1⟩ := mb
      rw [h2] at h
      dsimp only at h
      by_cases hc : a.cost ≤ m1.cost <;> simp [hc] at h

theorem popMinState_min (q : List SchedState) (m : SchedState)
    (r : List SchedState) (h : popMinState q = some (m, r)) :
    ∀ x ∈ q, m.cost ≤ x.cost := by
  induction q generalizing m r with
  | nil => simp [popMinState] at h
  | cons s rest ih =>
    simp only [popMinState] at h
    cases hr : popMinState rest with
    | none =>
      rw [hr] at h
      simp only [Option.some_inj, Prod.mk.injEq] at h
      obtain ⟨rfl, rfl⟩ := h
      have hrest := popMinState_nil_of_none rest hr
      subst hrest
      intro x hx
      rcases List.mem_singleton.mp hx with rfl
      exact le_refl _
    | some mr =>
      obtain ⟨m1, r1⟩ := mr
      rw [hr] at h
      dsimp only at h
      have ihm := ih m1 r1 hr
      by_cases hc : s.cost ≤ m1.cost
      · rw [if_pos hc] at h
        simp only [Option.some_inj, Prod.mk.injEq] at h
        obtain ⟨rfl, rfl⟩ := h
        intro x hx
        rcases List.mem_cons.mp hx with rfl | hx'
        · exact le_refl _
        · exact le_trans hc (ihm x hx')
      · rw [if_neg hc] at h
        simp only [Option.some_inj, Prod.mk.injEq] at h
        obtain ⟨rfl, rfl⟩ := h
        intro x hx
        rcases List.mem_cons.mp hx with rfl | hx'
        · exact le_of_lt (lt_of_not_le hc)
        · exact ihm x hx'

theorem popMinState_length (q : List SchedState) (m : SchedState)
    (r : List SchedState) (h : popMinState q = some (m, r)) :
    r.length + 1 = q.length := by
  induction q generalizing m r with
  | nil => simp [popMinState] at h
  | cons s rest ih =>
    simp only [popMinState] at h
    cases hr : popMinState rest with
    | none =>
      rw [hr] at h
      simp only [Option.some_inj, Prod.mk.injEq] at h
      obtain ⟨rfl, rfl⟩ := h
      have hrest := popMinState_nil_of_none rest hr
      subst hrest
      rfl
    | some mr =>
      obtain ⟨m1, r1⟩ := mr
      rw [hr] at h
      dsimp only at h
      by_cases hc : s.cost ≤ m1.cost
      · rw [if_pos hc] at h
        simp only [Option.some_inj, Prod.mk.injEq] at h
        obtain ⟨rfl, rfl⟩ := h
        rfl
      · rw [if_neg hc] at h
        simp only [Option.some_inj, Prod.mk.injEq] at h
        obtain ⟨rfl, rfl⟩ := h
        have := ih m1 r1 hr
        simp only [List.length_cons] at *
        omega

theorem dropMins_subset (k : Nat) (q : List SchedState) :
    ∀ x ∈ dropMins k q, x ∈ q := by
  induction k generalizing q with
  | zero => intro x hx; simpa [dropMins] using hx
  | succ k ih =>
    intro x hx
    simp only [dropMins] at hx
    cases hr : popMinState q with
    | none => rw [hr] at hx; simp at hx
    | some mr =>
      rw [hr] at hx
      exact popMinState_mem_of_rest q mr.1 mr.2 (by rw [hr]) x (ih mr.2 x hx)

/-- C4: whenever the frontier is longer than `beam_size` and is trimmed
(popping the top of the cost-ordered queue `beam_size` times into a fresh
queue), every retained state has cost at most the cost of every discarded
state. -/
theorem C4_trim_monotone (beam : Nat) (q : List SchedState)
    (hlen : beam < q.length) :
    ∀ r ∈ trimQueue beam q, ∀ d ∈ dropMins beam q, r.cost ≤ d.cost := by
  clear hlen
  induction beam generalizing q with
  | zero => intro r hr; simp [trimQueue] at hr
  | succ k ih =>
    intro r hr d hd
    simp only [trimQueue] at hr
    simp only [dropMins] at hd
    cases hp : popMinState q with
    | none => rw [hp] at hr; simp at hr
    | some mr =>
      obtain ⟨m1, r1⟩ := mr
      rw [hp] at hr hd
      dsimp only at hr hd
      rcases List.mem_cons.mp hr with rfl | hr'
      · exact popMinState_min q r r1 hp d
          (popMinState_mem_of_rest q r r1 hp d
            (dropMins_subset k r1 d hd))
      · exact ih r1 r hr' d hd


/-- Witness for C4: trimming the concrete three-state frontier `exQ` to
beam size 2 keeps the two cheapest states; the retained state of cost 3
is no more expensive than the discarded state of cost 5. -/
theorem C4_trim_monotone_witness : 2 < exQ.length ∧ stC.cost ≤ stA.cost :=
  ⟨by decide, C4_trim_monotone 2 exQ (by decide) stC (.tail _ (.head _))
    stA (.head _)⟩


theorem estLookup_bind (node : FNode) (i : Nat) :
    ((node.args.get? i).bind (fun a => do
      let est ← ((node.estimates.reverse.find? (fun b => b.1 == a)).map (·.2))
      pure ((est.1, est.1 + est.2 - 1) : Int × Int))) =
    (estLookup node i).map (fun est => (est.1, est.1 + est.2 - 1)) := by
  unfold estLookup
  cases node.args.get? i with
  | none => rfl
  | some a =>
    simp only [Option.bind]
    cases (node.estimates.reverse.find? (fun b => b.1 == a)) with
    | none => rfl
    | some e => rfl

/-- C9: `get_bounds` at the root for an output function (no outgoing
edges, nothing memoized) fails exactly when some dimension of the
function has no `(min, extent)` estimate; on success it returns the
region `[min, min + extent - 1]` per dimension, `min_points = ∏ extent`
over the estimate list, and `min_cost = min_points × node.compute`. -/
theorem C9_root_estimate_bounds (dag : FunctionDAG) (n : PSNode) (node : FNode)
    (f fuel : Nat) (hroot : n.is_root = true) (hnode : dag.nodeAt f = some node)
    (hout : dag.outgoing f = []) (hmemo : alookup n.bounds f = none) :
    (n.get_bounds dag (fuel+1) f = none ↔
      ∃ i, i < node.dims ∧ estLookup node i = none) ∧
    (∀ b, n.get_bounds dag (fuel+1) f = some b →
      b.min_points = node.estimates.foldl (fun acc e => acc * e.2.2) 1 ∧
      b.min_cost = (b.min_points : ℚ) * node.compute ∧
      b.region.length = node.dims ∧
      ∀ i, i < node.dims →
        b.region.get? i =
          (estLookup node i).map (fun est => (est.1, est.1 + est.2 - 1))) := by
  have hunf : n.get_bounds dag (fuel+1) f =
      match optRange (fun i =>
          (estLookup node i).map (fun est => (est.1, est.1 + est.2 - 1)))
          node.dims with
      | none => none
      | some region =>
        some ⟨region, node.estimates.foldl (fun acc b => acc * b.2.2) 1,
          ((node.estimates.foldl (fun acc b => acc * b.2.2) 1 : Int) : ℚ) *
            node.compute⟩ := by
    conv_lhs => rw [PSNode.get_bounds]
    rw [hmemo, hnode]
    simp only [FunctionDAG.nodeAt] at hnode
    rw [hout]
    simp only [List.isEmpty_nil, hroot, Bool.true_and, if_pos]
    have : (fun i => (node.args.get? i).bind (fun a => do
        let est ← ((node.estimates.reverse.find? (fun b => b.1 == a)).map (·.2))
        pure ((est.1, est.1 + est.2 - 1) : Int × Int))) =
        (fun i => (estLookup node i).map (fun est => (est.1, est.1 + est.2 - 1))) := by
      funext i
      exact estLookup_bind node i
    simp only [bind, Option.bind] at this ⊢
    rw [this]
  constructor
  · rw [hunf]
    cases ho : optRange (fun i =>
        (estLookup node i).map (fun est => (est.1, est.1 + est.2 - 1)))
        node.dims with
    | none =>
      constructor
      · intro _
        obtain ⟨i, hi, hgi⟩ := (optRange_eq_none_iff _ _).mp ho
        refine ⟨i, hi, ?_⟩
        cases hEL : estLookup node i with
        | none => rfl
        | some e => rw [hEL] at hgi; exact absurd hgi (by simp)
      · intro _; rfl
    | some region =>
      constructor
      · intro h; exact Option.noConfusion h
      · rintro ⟨i, hi, hgi⟩
        have hno := (optRange_eq_none_iff (fun i =>
          (estLookup node i).map (fun est => (est.1, est.1 + est.2 - 1)))
          node.dims).mpr ⟨i, hi, by rw [hgi]; rfl⟩
        rw [ho] at hno
        exact Option.noConfusion hno
  · intro b hb
    rw [hunf] at hb
    cases ho : optRange (fun i =>
        (estLookup node i).map (fun est => (est.1, est.1 + est.2 - 1)))
        node.dims with
    | none => rw [ho] at hb; exact Option.noConfusion hb
    | some region =>
      rw [ho] at hb
      have hb2 : some (⟨region,
          node.estimates.foldl (fun acc b => acc * b.2.2) 1,
          ((node.estimates.foldl (fun acc b => acc * b.2.2) 1 : Int) : ℚ) *
            node.compute⟩ : PBound) = some b := hb
      have hb3 := Option.some_inj.mp hb2
      obtain ⟨hlen, hget⟩ := optRange_eq_some _ _ _ ho
      subst hb3
      exact ⟨rfl, rfl, hlen, fun i hi => hget i hi⟩


/-- Witness for C9: on the concrete single-output DAG `dagA`, `get_bounds`
at the root succeeds and its `min_points` is the product of the estimate
extents (here 100). -/
theorem C9_root_estimate_bounds_witness :
    (rootA.get_bounds dagA 1 0).map PBound.min_points =
      some (hNodeA.estimates.foldl (fun acc e => acc * e.2.2) 1) ∧
    (rootA.get_bounds dagA 1 0).map PBound.region = some [((0:Int), (99:Int))] := by
  constructor
  · cases hb : rootA.get_bounds dagA 1 0 with
    | none => exact absurd hb (by decide)
    | some b =>
      have h := (C9_root_estimate_bounds dagA rootA hNodeA 0 0 rfl rfl rfl rfl).2 b hb
      simp only [Option.map_some', h.1]
  · decide

theorem foldl_const_add (l : List FEdge) (m : ℚ) :
    ∀ a : ℚ, l.foldl (fun acc _ => acc + m) a = a + l.length * m := by
  induction l with
  | nil => intro a; simp
  | cons x xs ih =>
    intro a
    simp only [List.foldl_cons, List.length_cons, ih (a + m)]
    push_cast
    ring

/-- C2: the bill for one function `f` realized at a node is
`compute_cost + mem_cost × (#outgoing_edges + 1)`: the memory cost
`node.memory × (instances × points) × log(discount × points)` is added
once per outgoing edge of `f` and once more on top of the compute cost. -/
theorem C2_store_at_billing (dag : FunctionDAG) (rlog : ℚ → ℚ) (bfuel : Nat)
    (n site : PSNode) (cs : List (Nat × PSNode)) (oc : List (Nat × ℚ))
    (instances subinstances : Int) (f : Nat) (br : PBound) (node : FNode)
    (d c : ℚ)
    (hbr : n.get_bounds dag bfuel f = some br)
    (hnode : dag.nodeAt f = some node)
    (hsite : alookup cs f = some site)
    (hd : siteDiscount dag bfuel n site f br = some d)
    (hc : billStoreAt dag rlog bfuel n cs oc instances subinstances f = some c) :
    c = node.compute * regionPoints br.region * (subinstances : ℚ) *
          ((alookup oc f).getD 0)
      + (node.memory * ((instances : ℚ) * regionPoints br.region) *
          rlog (d * regionPoints br.region)) * ((dag.outgoing f).length + 1) := by
  unfold billStoreAt at hc
  simp only [hbr, hnode, hsite, Option.bind_eq_bind, Option.some_bind] at hc
  rw [hd] at hc
  simp only [Option.some_bind, Option.some_inj] at hc
  rw [foldl_const_add (dag.outgoing f)
    (node.memory * ((instances : ℚ) * regionPoints br.region) *
      rlog (d * regionPoints br.region)) 0] at hc
  simp only [Option.pure_def, Option.some_inj] at hc
  rw [← hc]
  ring


/-- Witness for C2: at the concrete node `n0` realizing function 1 of
`dagB` (one outgoing edge), the bill equals
`compute_cost + mem_cost × (1 + 1)`. -/
theorem C2_store_at_billing_witness :
    (billStoreAt dagB (fun x => x) 1 n0 [(1, n0)] [(1, 2)] 3 6 1).getD 0 =
      gNodeB.compute * regionPoints [((0:Int), (4:Int))] * ((6 : Int) : ℚ) *
        ((alookup [((1:Nat), (2:ℚ))] 1).getD 0)
      + (gNodeB.memory * (((3 : Int) : ℚ) * regionPoints [((0:Int), (4:Int))]) *
          ((1:ℚ) * regionPoints [((0:Int), (4:Int))])) *
        ((dagB.outgoing 1).length + 1) := by
  cases hc : billStoreAt dagB (fun x => x) 1 n0 [(1, n0)] [(1, 2)] 3 6 1 with
  | none => exact absurd hc (by decide)
  | some c =>
    have h := C2_store_at_billing dagB (fun x => x) 1 n0 n0 [(1, n0)] [(1, 2)]
      3 6 1 ⟨[((0:Int), (4:Int))], 5, 5⟩ gNodeB 1 c rfl rfl rfl (by decide) hc
    simpa [hc] using h


theorem inline_fold_sum (f : Nat) (fn : Option Nat) (il : List (Nat × Int))
    (dag : FunctionDAG) :
    ∀ (l : List FEdge) (a : Int),
      l.foldl (fun acc e =>
        let acc := match alookup il e.consumer with
          | some v => acc + v * e.calls
          | none => acc
        if fn == some e.consumer then acc + e.calls else acc) a =
      a + (l.map (fun e => (alookup il e.consumer).getD 0 * e.calls +
        (if fn = some e.consumer then e.calls else 0))).sum := by
  intro l
  induction l with
  | nil => intro a; simp
  | cons e es ih =>
    intro a
    simp only [List.foldl_cons, List.map_cons, List.sum_cons, ih]
    by_cases hfn : fn = some e.consumer
    · cases hal : alookup il e.consumer with
      | none => simp only [hal, hfn, beq_self_eq_true, if_pos, Option.getD_none]; ring
      | some v => simp only [hal, hfn, beq_self_eq_true, if_pos, Option.getD_some]; ring
    · have hfn' : (fn == some e.consumer) = false := beq_eq_false_iff_ne.mpr hfn
      cases hal : alookup il e.consumer with
      | none => simp only [hal, hfn', hfn, Bool.false_eq_true, if_false,
          Option.getD_none]; ring
      | some v => simp only [hal, hfn', hfn, Bool.false_eq_true, if_false,
          Option.getD_some]; ring

theorem callsList_eq_false_iff (dag : FunctionDAG) (f : Nat) (c : List PSNode) :
    PSNode.callsList dag f c = false ↔
      ∀ x ∈ c, PSNode.calls dag f x = false := by
  induction c with
  | nil => simp [PSNode.callsList]
  | cons x xs ih =>
    rw [PSNode.callsList, Bool.or_eq_false_iff, ih]
    constructor
    · rintro ⟨h1, h2⟩ y hy
      rcases List.mem_cons.mp hy with rfl | hy'
      · exact h1
      · exact h2 y hy'
    · intro h
      exact ⟨h x (by simp), fun y hy => h y (by simp [hy])⟩

theorem inline_funcList_eq_map (dag : FunctionDAG) (f : Nat) (c : List PSNode) :
    PSNode.inline_funcList dag f c =
      c.map (fun x => if PSNode.calls dag f x then PSNode.inline_func dag f x
        else x) := by
  induction c with
  | nil => rfl
  | cons x xs ih => rw [PSNode.inline_funcList, ih, List.map_cons]

theorem inline_func_of_not_calls_aux (dag : FunctionDAG) (f : Nat) :
    ∀ (k : Nat) (n : PSNode), sizeOf n ≤ k → PSNode.calls dag f n = false →
      PSNode.inline_func dag f n = n := by
  intro k
  induction k with
  | zero =>
    intro n hsz
    exfalso
    cases n
    simp only [PSNode.mk.sizeOf_spec] at hsz
    omega
  | succ k ih =>
    intro n hsz hcalls
    cases n with
    | mk fn im tl sz c il sa bd =>
      rw [PSNode.calls] at hcalls
      rw [Bool.or_eq_false_iff] at hcalls
      obtain ⟨hch, hedge⟩ := hcalls
      rw [PSNode.inline_func]
      rw [List.any_eq_false] at hedge
      have hc' : PSNode.inline_funcList dag f c = c := by
        rw [inline_funcList_eq_map]
        have heach : ∀ x ∈ c,
            (if PSNode.calls dag f x then PSNode.inline_func dag f x else x) =
            x := by
          intro x hx
          have hxf := (callsList_eq_false_iff dag f c).mp hch x hx
          rw [if_neg (by rw [hxf]; simp)]
        rw [List.map_congr_left heach, List.map_id']
      rw [hc']
      have hcl : (dag.outgoing f).foldl (fun acc e =>
          let acc := match alookup il e.consumer with
            | some v => acc + v * e.calls
            | none => acc
          if fn == some e.consumer then acc + e.calls else acc) 0 = 0 := by
        rw [inline_fold_sum f fn il dag (dag.outgoing f) 0]
        have hz : ∀ x ∈ (dag.outgoing f).map (fun e =>
            (alookup il e.consumer).getD 0 * e.calls +
            (if fn = some e.consumer then e.calls else 0)), x = 0 := by
          intro x hx
          obtain ⟨e, he, rfl⟩ := List.mem_map.mp hx
          have h2 : (fn == some e.consumer ||
              (il.find? (fun p => p.1 == e.consumer)).isSome) = false := by
            cases hX : (fn == some e.consumer ||
                (il.find? (fun p => p.1 == e.consumer)).isSome) with
            | false => rfl
            | true => exact absurd hX (hedge e he)
          rw [Bool.or_eq_false_iff] at h2
          obtain ⟨hfn, hfind⟩ := h2
          have hal : alookup il e.consumer = none := by
            unfold alookup
            cases hfo : il.find? (fun p => p.1 == e.consumer) with
            | none => rfl
            | some p => rw [hfo] at hfind; simp at hfind
          rw [hal]
          rw [if_neg (fun hcontra => by rw [hcontra] at hfn; simp at hfn)]
          simp
        rw [List.sum_eq_zero hz]
        omega
      rw [hcl]
      simp

/-- C10: `inline_func` is a frame-respecting rewrite of the tree: a
subtree that does not call `f` is returned unchanged (shared); every node
keeps its function, flags, sizes, `store_at` set and memoized bounds;
children are rewritten exactly when they call `f`; and only at an
innermost node is an `inlined` entry for `f` added, with count
`Σ over outgoing edges of inlined[consumer] × e.calls (+ e.calls when the
consumer is the node's own function)`, and only when that count is
nonzero. -/
theorem C10_inline_func_frame (dag : FunctionDAG) (f : Nat) :
    (∀ n, PSNode.calls dag f n = false → PSNode.inline_func dag f n = n) ∧
    (∀ n,
      (PSNode.inline_func dag f n).func = n.func ∧
      (PSNode.inline_func dag f n).innermost = n.innermost ∧
      (PSNode.inline_func dag f n).tileable = n.tileable ∧
      (PSNode.inline_func dag f n).size = n.size ∧
      (PSNode.inline_func dag f n).store_at = n.store_at ∧
      (PSNode.inline_func dag f n).bounds = n.bounds ∧
      (PSNode.inline_func dag f n).children = n.children.map
        (fun c => if PSNode.calls dag f c then PSNode.inline_func dag f c
          else c) ∧
      (PSNode.inline_func dag f n).inlined =
        (if n.innermost = true ∧ inlineCallCount dag f n ≠ 0 then
          ainsert n.inlined f (inlineCallCount dag f n) else n.inlined)) := by
  constructor
  · intro n
    exact inline_func_of_not_calls_aux dag f (sizeOf n) n le_rfl
  · intro n
    cases n with
    | mk fn im tl sz c il sa bd =>
      rw [PSNode.inline_func]
      refine ⟨rfl, rfl, rfl, rfl, rfl, rfl, ?_, ?_⟩
      · simp only [PSNode.children]
        exact inline_funcList_eq_map dag f c
      · simp only [PSNode.inlined, PSNode.innermost, PSNode.func,
          inlineCallCount]
        have hfold : (dag.outgoing f).foldl (fun acc e =>
            let acc := match alookup il e.consumer with
              | some v => acc + v * e.calls
              | none => acc
            if fn == some e.consumer then acc + e.calls else acc) 0 =
            ((dag.outgoing f).map (fun e =>
              (alookup il e.consumer).getD 0 * e.calls +
              (if fn = some e.consumer then e.calls else 0))).sum := by
          rw [inline_fold_sum f fn il dag]
          exact zero_add _
        cases him : im with
        | false => simp
        | true =>
          by_cases hS : ((dag.outgoing f).map (fun e =>
              (alookup il e.consumer).getD 0 * e.calls +
              (if fn = some e.consumer then e.calls else 0))).sum = 0
          · rw [hfold]
            simp [hS]
          · rw [hfold]
            simp [hS]


/-- Witness for C10: a leaf that does not call function 1 is returned by
`inline_func` unchanged (structurally shared). -/
theorem C10_inline_func_frame_witness :
    PSNode.inline_func dagB 1 gLeafB = gLeafB :=
  (C10_inline_func_frame dagB 1).1 gLeafB (by decide)


theorem innermostLeafInvList_append (a b : List PSNode) :
    innermostLeafInvList (a ++ b) =
    (innermostLeafInvList a && innermostLeafInvList b) := by
  induction a with
  | nil => simp [innermostLeafInvList]
  | cons x xs ih =>
    rw [List.cons_append, innermostLeafInvList, innermostLeafInvList, ih,
      Bool.and_assoc]

/-- C7 counterexample: the tree `rootB` (output realized at the root, an
innermost leaf for it — exactly the state the search reaches after
scheduling `dagB`'s output) satisfies the innermost-leaves-have-no-children
invariant, yet `compute_in_tiles` for the next function returns candidate
trees that violate it: pushing the computation into the innermost leaf
appends a child to a node whose `innermost` flag stays `true`. -/
theorem C7_counterexample :
    innermostLeafInv rootB = true ∧
    (PSNode.compute_in_tiles dagB 5 5 rootB 1 none false).map
      (fun l => l.map innermostLeafInv) =
      some [true, false, true, false, true, false] := by
  constructor
  · decide
  · decide

/-- C7 amended: `compute_here` preserves the invariant when its target
node is not itself innermost (the freshly appended leaf is innermost with
no children); `compute_in_tiles` does not preserve it in general, because
it applies `compute_here` to innermost children. -/
theorem C7_compute_here_preserves_inv (dag : FunctionDAG) (f fuel : Nat)
    (n r : PSNode) (hinv : innermostLeafInv n = true)
    (hin : n.innermost = false)
    (hch : n.compute_here dag f fuel = some r) :
    innermostLeafInv r = true := by
  cases n with
  | mk fn im tl sz c il sa bd =>
    simp only [PSNode.innermost] at hin
    subst hin
    unfold PSNode.compute_here at hch
    simp only [Option.bind_eq_bind, Option.bind_eq_some, Option.pure_def,
      Option.some_inj] at hch
    obtain ⟨b, _, node, _, szs, _, spreg, _, hr⟩ := hch
    rw [innermostLeafInv] at hinv
    rw [Bool.and_eq_true] at hinv
    obtain ⟨_, hlist⟩ := hinv
    subst hr
    rw [innermostLeafInv]
    simp only [PSNode.children, PSNode.innermost, PSNode.func, PSNode.size,
      PSNode.tileable, PSNode.inlined, PSNode.store_at, PSNode.bounds]
    rw [innermostLeafInvList_append]
    rw [Bool.and_eq_true, Bool.and_eq_true]
    refine ⟨by simp, hlist, ?_⟩
    rw [innermostLeafInvList, innermostLeafInv, innermostLeafInvList]
    simp

/-- Witness for the amended C7: applying `compute_here` to the (non-
innermost) root `rootB` yields a tree still satisfying the invariant. -/
theorem C7_compute_here_preserves_inv_witness :
    (rootB.compute_here dagB 1 5).map innermostLeafInv = some true := by
  cases hr : rootB.compute_here dagB 1 5 with
  | none =>
    have hs : (rootB.compute_here dagB 1 5).isSome = true := by decide
    rw [hr] at hs
    exact absurd hs (by simp)
  | some r =>
    have h := C7_compute_here_preserves_inv dagB 1 5 rootB r (by decide) rfl hr
    simp [h]


theorem tilingLoop1_mem (sd : Int) (d : Nat) (o fl : Bool) (t : List Int) :
    ∀ (fuel : Nat) (outer : Int) (x : List Int),
      x ∈ tilingLoop1 sd d o fl t fuel outer →
      IsPow2 outer → 1 ≤ outer →
      ∃ u : Int, x = t ++ [u] ∧ IsPow2 u ∧ 1 ≤ u ∧ u ≤ sd ∧
        u ≤ ceilDiv sd u ∧ (d = 0 → 16 ≤ ceilDiv sd u) := by
  intro fuel
  induction fuel with
  | zero => intro outer x hx; rw [tilingLoop1] at hx; simp at hx
  | succ fuel ih =>
    intro outer x hx hp h1
    rw [tilingLoop1] at hx
    by_cases hle : outer ≤ sd
    · rw [if_pos hle] at hx
      have hp2 : IsPow2 (outer * 2) := by
        obtain ⟨k, hk⟩ := hp
        exact ⟨k + 1, by rw [hk]; ring⟩
      have h12 : 1 ≤ outer * 2 := by omega
      by_cases hc1 : (o && outer == 1) = true
      · rw [if_pos hc1] at hx
        exact ih (outer * 2) x hx hp2 h12
      · rw [if_neg hc1] at hx
        by_cases hc2 : (fl && outer == sd) = true
        · rw [if_pos hc2] at hx
          exact ih (outer * 2) x hx hp2 h12
        · rw [if_neg hc2] at hx
          by_cases hc3 : (decide (outer > (sd + outer - 1) / outer) ||
              (decide (d = 0) && decide ((sd + outer - 1) / outer < 16))) = true
          · rw [if_pos hc3] at hx
            simp at hx
          · rw [if_neg hc3] at hx
            simp only [Bool.not_eq_true] at hc3
            rw [Bool.or_eq_false_iff] at hc3
            obtain ⟨hc3a, hc3b⟩ := hc3
            rcases List.mem_cons.mp hx with rfl | hx'
            · refine ⟨outer, rfl, hp, h1, hle, ?_, ?_⟩
              · have := of_decide_eq_false hc3a
                unfold ceilDiv
                omega
              · intro hd0
                rw [hd0] at hc3b
                simp only [decide_eq_true_eq, decide_True, Bool.true_and] at hc3b
                have := of_decide_eq_false hc3b
                unfold ceilDiv
                omega
            · exact ih (outer * 2) x hx' hp2 h12
    · rw [if_neg hle] at hx
      simp at hx

theorem tilingLoop2_mem (sd : Int) (o fl : Bool) (t : List Int) :
    ∀ (fuel : Nat) (w : Int) (x : List Int),
      x ∈ tilingLoop2 sd o fl t fuel w →
      IsPow2 w → 1 ≤ w →
      ∃ u w2 : Int, x = t ++ [u] ∧ IsPow2 w2 ∧ 1 ≤ w2 ∧ w2 < sd ∧
        u = ceilDiv sd w2 ∧ w2 < u := by
  intro fuel
  induction fuel with
  | zero => intro w x hx; rw [tilingLoop2] at hx; simp at hx
  | succ fuel ih =>
    intro w x hx hp h1
    rw [tilingLoop2] at hx
    by_cases hlt : w < sd
    · rw [if_pos hlt] at hx
      have hp2 : IsPow2 (w * 2) := by
        obtain ⟨k, hk⟩ := hp
        exact ⟨k + 1, by rw [hk]; ring⟩
      have h12 : 1 ≤ w * 2 := by omega
      by_cases hc1 : (o && (sd + w - 1) / w == 1) = true
      · rw [if_pos hc1] at hx
        exact ih (w * 2) x hx hp2 h12
      · rw [if_neg hc1] at hx
        by_cases hc2 : (fl && (sd + w - 1) / w == sd) = true
        · rw [if_pos hc2] at hx
          exact ih (w * 2) x hx hp2 h12
        · rw [if_neg hc2] at hx
          by_cases hc3 : w ≥ (sd + w - 1) / w
          · rw [if_pos hc3] at hx
            simp at hx
          · rw [if_neg hc3] at hx
            rcases List.mem_cons.mp hx with rfl | hx'
            · exact ⟨(sd + w - 1) / w, w, rfl, hp, h1, hlt, rfl, by omega⟩
            · exact ih (w * 2) x hx' hp2 h12
    · rw [if_neg hlt] at hx
      simp at hx

theorem mem_foldl_append {α β : Type} (g : β → List α) (v : List β) (x : α) :
    ∀ init : List α,
      (x ∈ v.foldl (fun r t => r ++ g t) init ↔ x ∈ init ∨ ∃ t ∈ v, x ∈ g t) := by
  induction v with
  | nil => intro init; simp
  | cons b bs ih =>
    intro init
    rw [List.foldl_cons, ih (init ++ g b)]
    constructor
    · rintro (hm | ⟨t, ht, hx⟩)
      · rcases List.mem_append.mp hm with hm1 | hm2
        · exact Or.inl hm1
        · exact Or.inr ⟨b, by simp, hm2⟩
      · exact Or.inr ⟨t, by simp [ht], hx⟩
    · rintro (hm | ⟨t, ht, hx⟩)
      · exact Or.inl (List.mem_append.mpr (Or.inl hm))
      · rcases List.mem_cons.mp ht with rfl | ht'
        · exact Or.inl (List.mem_append.mpr (Or.inr hx))
        · exact Or.inr ⟨t, ht', hx⟩

/-- C6 counterexample: for extents `s = [32]` with splitting allowed, the
tiling `[16]` is emitted (by the inner-doubling sweep), yet its inner
factor is `ceil(32/16) = 2 < 16` and `outer = 16 > inner = 2`, violating
the claimed power-of-two/outer ≤ inner/vector-width property. -/
theorem C6_counterexample :
    [(16 : Int)] ∈ generate_tilings [32] true 1 ∧
    ¬ specC6Prop [32] [(16 : Int)] := by
  constructor
  · decide
  · intro h
    obtain ⟨-, h2⟩ := h
    have := (h2 0 (by decide)).2.2.2.1
    revert this
    decide

/-- C6 amended: with splitting allowed every emitted tiling has one factor
per dimension, and in each dimension `i` the factor is either a
power-of-two outer `≤ ceil(s[i]/outer)` (with the `inner ≥ 16` vector
bound when `i = 0`) from the outer sweep, or `ceil(s[i]/inner)` for some
power-of-two `inner` with `inner < outer` from the inner sweep — the
latter factors need not be powers of two, may exceed the corresponding
inner extent, and are not vector-width-checked. -/
theorem C6_generate_tilings_shape (s : List Int) :
    ∀ (dd : Nat) (t : List Int), t ∈ generate_tilings s true dd →
      t.length = dd ∧ ∀ i, i < dd → tilingDimOK s i (t.getD i 0) := by
  intro dd
  induction dd with
  | zero =>
    intro t ht
    rw [generate_tilings] at ht
    rcases List.mem_singleton.mp ht with rfl
    exact ⟨rfl, fun i hi => absurd hi (by omega)⟩
  | succ dd ih =>
    intro t ht
    rw [generate_tilings] at ht
    rcases (mem_foldl_append (tilingsForDim s true dd)
        (generate_tilings s true dd) t []).mp ht with h0 | ⟨t0, ht0, htd⟩
    · simp at h0
    · obtain ⟨hlen0, hdim0⟩ := ih t0 ht0
      rw [tilingsForDim] at htd
      simp only [Bool.not_true, Bool.false_eq_true, if_false] at htd
      have step : ∃ u : Int, t = t0 ++ [u] ∧ tilingDimOK s dd u := by
        rcases List.mem_append.mp htd with h1 | h2
        · obtain ⟨u, rfl, hup, hu1, hule, huci, hud0⟩ :=
            tilingLoop1_mem (s.getD dd 0) dd _ _ t0 _ 1 t h1
              ⟨0, by norm_num⟩ (by norm_num)
          exact ⟨u, rfl, Or.inl ⟨hup, hu1, hule, huci, hud0⟩⟩
        · obtain ⟨u, w2, rfl, hwp, hw1, hwlt, hueq, hwu⟩ :=
            tilingLoop2_mem (s.getD dd 0) _ _ t0 _ 1 t h2
              ⟨0, by norm_num⟩ (by norm_num)
          exact ⟨u, rfl, Or.inr ⟨w2, hwp, hw1, hwlt, hueq, hwu⟩⟩
      obtain ⟨u, rfl, hdim⟩ := step
      constructor
      · simp [hlen0]
      · intro i hi
        rcases Nat.lt_succ_iff_lt_or_eq.mp hi with hi' | rfl
        · rw [List.getD_append _ _ _ _ (by omega)]
          exact hdim0 i hi'
        · rw [List.getD_append_right _ _ _ _ (by omega)]
          rw [hlen0]
          simp only [Nat.sub_self, List.getD]
          simpa using hdim

/-- Witness for the amended C6: the concrete tiling `[16]` of extents
`[32]` satisfies the per-dimension disjunction (it comes from the inner
sweep with `inner = 2`). -/
theorem C6_generate_tilings_shape_witness :
    [(16 : Int)].length = 1 ∧ tilingDimOK [32] 0 16 := by
  have h := C6_generate_tilings_shape [32] 1 [(16 : Int)] (by decide)
  exact ⟨h.1, by simpa using h.2 0 (by decide)⟩


/-- C1 counterexample: at the root of `dagC`, `f = 2` is consumed through
two edges whose demanded footprints are `[(0, 10)]` (via `g`) and
`[(0, 31)]` (via `h`); `get_bounds` combines them to `[(0, 10)]` — the
minimum of the upper bounds, not the union — so the returned region does
not contain the region demanded through the edge to `h`. -/
theorem C1_counterexample :
    (rootA.get_bounds dagC 4 2).map PBound.region = some [((0:Int), (10:Int))] ∧
    (rootA.get_bounds dagC 4 1).map PBound.region = some [((0:Int), (31:Int))] ∧
    edgeFootprint ⟨2, 1, [(.vmin 0, .vmax 0)], 1⟩ 1 [((0:Int), (31:Int))] =
      some [((0:Int), (31:Int))] ∧
    regionContains [((0:Int), (10:Int))] [((0:Int), (31:Int))] = false :=
  ⟨by decide, by decide, by decide, by decide⟩

theorem mergeFootprint_length : ∀ a b : List (Int × Int),
    (mergeFootprint a b).length = max a.length b.length := by
  intro a
  induction a with
  | nil => intro b; simp [mergeFootprint]
  | cons x xs ih =>
    intro b
    cases b with
    | nil => simp [mergeFootprint]
    | cons y ys =>
      rw [show mergeFootprint (x :: xs) (y :: ys) =
        (min x.1 y.1, min x.2 y.2) :: mergeFootprint xs ys from rfl]
      simp only [List.length_cons, ih ys]
      omega

theorem mergeFootprint_get : ∀ (a b : List (Int × Int)) (i : Nat)
    (p q : Int × Int), a.get? i = some p → b.get? i = some q →
    (mergeFootprint a b).get? i = some (min p.1 q.1, min p.2 q.2) := by
  intro a
  induction a with
  | nil => intro b i p q hp; simp at hp
  | cons x xs ih =>
    intro b i p q hp hq
    cases b with
    | nil => simp at hq
    | cons y ys =>
      rw [show mergeFootprint (x :: xs) (y :: ys) =
        (min x.1 y.1, min x.2 y.2) :: mergeFootprint xs ys from rfl]
      cases i with
      | zero =>
        simp only [List.get?] at hp hq ⊢
        obtain rfl := Option.some_inj.mp hp
        obtain rfl := Option.some_inj.mp hq
        rfl
      | succ i =>
        simp only [List.get?] at hp hq ⊢
        exact ih ys i p q hp hq

theorem get?_isSome_of_lt {α : Type} (l : List α) (i : Nat) (h : i < l.length) :
    ∃ p, l.get? i = some p := by
  cases hp : l.get? i with
  | none => rw [List.get?_eq_none] at hp; omega
  | some p => exact ⟨p, rfl⟩

theorem foldl_merge_spec :
    ∀ (fps : List (List (Int × Int))) (acc : List (Int × Int)) (nd : Nat),
      acc.length = nd → (∀ fp ∈ fps, fp.length = nd) →
      (fps.foldl mergeFootprint acc).length = nd ∧
      ∀ i, i < nd → ∃ p q0, (fps.foldl mergeFootprint acc).get? i = some p ∧
        acc.get? i = some q0 ∧ p.1 ≤ q0.1 ∧ p.2 ≤ q0.2 ∧
        (∀ fp ∈ fps, ∃ q, fp.get? i = some q ∧ p.1 ≤ q.1 ∧ p.2 ≤ q.2) ∧
        (p.1 = q0.1 ∨ ∃ fp1 ∈ fps, ∃ q1, fp1.get? i = some q1 ∧ p.1 = q1.1) ∧
        (p.2 = q0.2 ∨ ∃ fp2 ∈ fps, ∃ q2, fp2.get? i = some q2 ∧ p.2 = q2.2) := by
  intro fps
  induction fps with
  | nil =>
    intro acc nd hacc _
    refine ⟨hacc, fun i hi => ?_⟩
    obtain ⟨p, hp⟩ := get?_isSome_of_lt acc i (by omega)
    exact ⟨p, p, hp, hp, le_refl _, le_refl _, by simp, Or.inl rfl, Or.inl rfl⟩
  | cons fp0 rest ih =>
    intro acc nd hacc hall
    have hfp0 : fp0.length = nd := hall fp0 (by simp)
    have hacc' : (mergeFootprint acc fp0).length = nd := by
      rw [mergeFootprint_length]; omega
    have hrest : ∀ fp ∈ rest, fp.length = nd :=
      fun fp hfp => hall fp (by simp [hfp])
    obtain ⟨hlen, hspec⟩ := ih (mergeFootprint acc fp0) nd hacc' hrest
    refine ⟨by simpa using hlen, fun i hi => ?_⟩
    obtain ⟨p, q0', hres, hq0', hple1, hple2, hfps, hat1, hat2⟩ := hspec i hi
    obtain ⟨q0, hq0⟩ := get?_isSome_of_lt acc i (by omega)
    obtain ⟨r0, hr0⟩ := get?_isSome_of_lt fp0 i (by omega)
    have hmget := mergeFootprint_get acc fp0 i q0 r0 hq0 hr0
    rw [hmget] at hq0'
    obtain rfl := Option.some_inj.mp hq0'
    refine ⟨p, q0, by simpa using hres, hq0, ?_, ?_, ?_, ?_, ?_⟩
    · exact le_trans hple1 (by simp [min_le_left])
    · exact le_trans hple2 (by simp [min_le_left])
    · intro fp hfp
      rcases List.mem_cons.mp hfp with rfl | hfp'
      · exact ⟨r0, hr0, le_trans hple1 (by simp [min_le_right]),
          le_trans hple2 (by simp [min_le_right])⟩
      · exact hfps fp hfp'
    · rcases hat1 with h | ⟨fp1, hfp1, q1, hq1, hpq1⟩
      · rcases min_choice q0.1 r0.1 with hm | hm
        · exact Or.inl (by rw [h]; exact hm)
        · exact Or.inr ⟨fp0, by simp, r0, hr0, by rw [h]; exact hm⟩
      · exact Or.inr ⟨fp1, by simp [hfp1], q1, hq1, hpq1⟩
    · rcases hat2 with h | ⟨fp2, hfp2, q2, hq2, hpq2⟩
      · rcases min_choice q0.2 r0.2 with hm | hm
        · exact Or.inl (by rw [h]; exact hm)
        · exact Or.inr ⟨fp0, by simp, r0, hr0, by rw [h]; exact hm⟩
      · exact Or.inr ⟨fp2, by simp [hfp2], q2, hq2, hpq2⟩

/-- C1 amended: combining the integer footprints demanded through the
outgoing edges (the `mergeFootprint` fold of `get_bounds`, starting from
the empty region) yields, in every dimension, the **minimum of the lower
bounds and the minimum of the upper bounds** over all edges — not the
per-dimension union: the resulting upper bound is the smallest demanded
upper bound, so the region is in general not a superset of each
consumer's requirement. -/
theorem C1_bounds_combine_min (fps : List (List (Int × Int))) (nd : Nat)
    (hne : fps ≠ []) (hlen : ∀ fp ∈ fps, fp.length = nd) :
    (fps.foldl mergeFootprint []).length = nd ∧
    ∀ i, i < nd → ∃ p, (fps.foldl mergeFootprint []).get? i = some p ∧
      (∀ fp ∈ fps, ∃ q, fp.get? i = some q ∧ p.1 ≤ q.1 ∧ p.2 ≤ q.2) ∧
      (∃ fp1 ∈ fps, ∃ q1, fp1.get? i = some q1 ∧ p.1 = q1.1) ∧
      (∃ fp2 ∈ fps, ∃ q2, fp2.get? i = some q2 ∧ p.2 = q2.2) := by
  cases fps with
  | nil => exact absurd rfl hne
  | cons fp0 rest =>
    have hnil : mergeFootprint [] fp0 = fp0 := by cases fp0 <;> rfl
    have hstep : (fp0 :: rest).foldl mergeFootprint [] =
        rest.foldl mergeFootprint fp0 := by
      rw [List.foldl_cons, hnil]
    have hfp0 : fp0.length = nd := hlen fp0 (by simp)
    have hrest : ∀ fp ∈ rest, fp.length = nd :=
      fun fp hfp => hlen fp (by simp [hfp])
    obtain ⟨hl, hspec⟩ := foldl_merge_spec rest fp0 nd hfp0 hrest
    rw [hstep]
    refine ⟨hl, fun i hi => ?_⟩
    obtain ⟨p, q0, hres, hq0, hple1, hple2, hfps, hat1, hat2⟩ := hspec i hi
    refine ⟨p, hres, ?_, ?_, ?_⟩
    · intro fp hfp
      rcases List.mem_cons.mp hfp with rfl | hfp'
      · exact ⟨q0, hq0, hple1, hple2⟩
      · exact hfps fp hfp'
    · rcases hat1 with h | ⟨fp1, hfp1, q1, hq1, hpq1⟩
      · exact ⟨fp0, by simp, q0, hq0, h⟩
      · exact ⟨fp1, by simp [hfp1], q1, hq1, hpq1⟩
    · rcases hat2 with h | ⟨fp2, hfp2, q2, hq2, hpq2⟩
      · exact ⟨fp0, by simp, q0, hq0, h⟩
      · exact ⟨fp2, by simp [hfp2], q2, hq2, hpq2⟩

/-- Witness for the amended C1: combining the two concrete footprints of
`dagC` — `[(0, 10)]` and `[(0, 31)]` — gives `[(0, 10)]`: lower bound
`min 0 0`, upper bound `min 10 31`. -/
theorem C1_bounds_combine_min_witness :
    ([[((0:Int), (10:Int))], [((0:Int), (31:Int))]].foldl
      mergeFootprint []).length = 1 ∧
    ([[((0:Int), (10:Int))], [((0:Int), (31:Int))]].foldl
      mergeFootprint []).get? 0 = some ((0:Int), (10:Int)) := by
  have h := C1_bounds_combine_min
    [[((0:Int), (10:Int))], [((0:Int), (31:Int))]] 1 (by simp) (by decide)
  refine ⟨h.1, ?_⟩
  decide

theorem optionBind_eq_some {α β : Type} (x : Option α) (g : α → Option β)
    (b : β) : (x >>= g) = some b ↔ ∃ a, x = some a ∧ g a = some b := by
  cases x <;> simp

theorem tileStep_grows (dag : FunctionDAG) (bfuel : Nat)
    (rec : PSNode → Nat → Option PSNode → Bool → Option (List PSNode))
    (n : PSNode) (f : Nat) (parent : Option PSNode) (inr : Bool)
    (acc : List PSNode) (t : List Int) (out : List PSNode)
    (h : tileStep dag bfuel rec n f parent inr acc t = some out) :
    ∃ s, out = acc ++ s := by
  unfold tileStep at h
  rw [optionBind_eq_some] at h
  obtain ⟨pb, hpb, h⟩ := h
  try dsimp only at h
  split at h
  · exact ⟨[], by simpa using (Option.some_inj.mp h).symm⟩
  · rw [optionBind_eq_some] at h
    obtain ⟨fn, hfn, h⟩ := h
    try dsimp only at h
    rw [optionBind_eq_some] at h
    obtain ⟨isz, hisz, h⟩ := h
    try dsimp only at h
    rw [optionBind_eq_some] at h
    obtain ⟨osz, hosz, h⟩ := h
    try dsimp only at h
    rw [optionBind_eq_some] at h
    obtain ⟨pbnd, hpbnd, h⟩ := h
    try dsimp only at h
    rw [optionBind_eq_some] at h
    obtain ⟨nreg, hnreg, h⟩ := h
    try dsimp only at h
    rw [optionBind_eq_some] at h
    obtain ⟨cah, hcah, h⟩ := h
    try dsimp only at h
    split at h
    · rw [optionBind_eq_some] at h
      obtain ⟨v, hv, h⟩ := h
      try dsimp only at h
      have hout := (Option.some_inj.mp h).symm
      rw [List.append_assoc] at hout
      exact ⟨_, hout⟩
    · exact ⟨_, (Option.some_inj.mp h).symm⟩

theorem childPushStep_grows (dag : FunctionDAG) (bfuel : Nat)
    (rec : PSNode → Nat → Option PSNode → Bool → Option (List PSNode))
    (n : PSNode) (f ci : Nat) (inr : Bool) (acc : List PSNode)
    (store_here : Bool) (out : List PSNode)
    (h : childPushStep dag bfuel rec n f ci inr acc store_here = some out) :
    ∃ s, out = acc ++ s := by
  unfold childPushStep at h
  split at h
  · exact ⟨[], by simpa using (Option.some_inj.mp h).symm⟩
  · rw [optionBind_eq_some] at h
    obtain ⟨cnode, hcn, h⟩ := h
    try dsimp only at h
    rw [optionBind_eq_some] at h
    obtain ⟨v, hv, h⟩ := h
    try dsimp only at h
    exact ⟨_, (Option.some_inj.mp h).symm⟩

theorem foldlM_grows {α β : Type} (step : List α → β → Option (List α))
    (hstep : ∀ a b o, step a b = some o → ∃ s, o = a ++ s) :
    ∀ (l : List β) (acc out : List α), l.foldlM step acc = some out →
      ∃ s, out = acc ++ s := by
  intro l
  induction l with
  | nil =>
    intro acc out h
    simp only [List.foldlM_nil, Option.pure_def, Option.some_inj] at h
    exact ⟨[], by simp [← h]⟩
  | cons b bs ih =>
    intro acc out h
    rw [List.foldlM_cons] at h
    rw [optionBind_eq_some] at h
    obtain ⟨a1, ha1, h⟩ := h
    obtain ⟨s1, rfl⟩ := hstep acc b a1 ha1
    obtain ⟨s2, rfl⟩ := ih (acc ++ s1) out h
    exact ⟨s1 ++ s2, by rw [List.append_assoc]⟩

theorem mapM_some_length {α β : Type} (g : α → Option β) :
    ∀ (l : List α) (r : List β), l.mapM g = some r → r.length = l.length := by
  intro l
  induction l with
  | nil =>
    intro r h
    simp only [List.mapM_nil, Option.pure_def, Option.some_inj] at h
    simp [← h]
  | cons a as ih =>
    intro r h
    rw [List.mapM_cons] at h
    rw [optionBind_eq_some] at h
    obtain ⟨b, hb, h⟩ := h
    try dsimp only at h
    rw [optionBind_eq_some] at h
    obtain ⟨r2, hr2, h⟩ := h
    try dsimp only at h
    rw [← Option.some_inj.mp h]
    simp [ih r2 hr2]

theorem compute_in_tiles_nonempty (dag : FunctionDAG) (bfuel : Nat)
    (fuel : Nat) (n : PSNode) (f : Nat) (parent : Option PSNode) (inr : Bool)
    (v : List PSNode)
    (h : PSNode.compute_in_tiles dag bfuel fuel n f parent inr = some v) :
    v ≠ [] := by
  cases fuel with
  | zero => exact absurd h (by rw [PSNode.compute_in_tiles]; simp)
  | succ fuel =>
    rw [PSNode.compute_in_tiles] at h
    rw [optionBind_eq_some] at h
    obtain ⟨r0, hr0, h⟩ := h
    try dsimp only at h
    split at h
    · rw [← Option.some_inj.mp h]; simp
    · split at h
      · rw [optionBind_eq_some] at h
        obtain ⟨res1, hres1, h⟩ := h
        try dsimp only at h
        have hres1ne : res1 ≠ [] := by
          obtain ⟨s, rfl⟩ := foldlM_grows _
            (fun a b o ho => tileStep_grows dag bfuel _ n f parent inr a b o ho)
            _ _ _ hres1
          simp
        split at h
        · rw [optionBind_eq_some] at h
          obtain ⟨acc1, hacc1, h⟩ := h
          try dsimp only at h
          obtain ⟨s1, rfl⟩ := childPushStep_grows dag bfuel _ n f _ inr res1
            false acc1 hacc1
          obtain ⟨s2, rfl⟩ := childPushStep_grows dag bfuel _ n f _ inr _
            true v h
          intro hc
          rw [List.append_assoc] at hc
          rcases List.append_eq_nil.mp hc with ⟨h1, -⟩
          exact hres1ne h1
        · rw [← Option.some_inj.mp h]; exact hres1ne
      · rw [optionBind_eq_some] at h
        obtain ⟨res1, hres1, h⟩ := h
        try dsimp only at h
        have hres1ne : res1 ≠ [] := by
          rw [← Option.some_inj.mp hres1]; simp
        split at h
        · rw [optionBind_eq_some] at h
          obtain ⟨acc1, hacc1, h⟩ := h
          try dsimp only at h
          obtain ⟨s1, rfl⟩ := childPushStep_grows dag bfuel _ n f _ inr res1
            false acc1 hacc1
          obtain ⟨s2, rfl⟩ := childPushStep_grows dag bfuel _ n f _ inr _
            true v h
          intro hc
          rw [List.append_assoc] at hc
          rcases List.append_eq_nil.mp hc with ⟨h1, -⟩
          exact hres1ne h1
        · rw [← Option.some_inj.mp h]; exact hres1ne
theorem generate_children_nonempty (dag : FunctionDAG) (rlog : ℚ → ℚ)
    (bfuel tfuel : Nat) (s : SchedState) (cs : List SchedState)
    (hnt : s.num_funcs_scheduled < dag.nodes.length)
    (h : generate_children dag rlog bfuel tfuel s = some cs) :
    cs ≠ [] := by
  unfold generate_children at h
  split at h
  · exact Option.noConfusion h
  · split at h
    · rename_i hterm
      simp only [beq_iff_eq] at hterm
      omega
    · try dsimp only at h
      split at h
      · exact Option.noConfusion h
      · split at h
        · rw [optionBind_eq_some] at h
          obtain ⟨c, hc, h⟩ := h
          try dsimp only at h
          split at h
          · rw [optionBind_eq_some] at h
            obtain ⟨io, hio, h⟩ := h
            exact Option.noConfusion hio
          · rw [optionBind_eq_some] at h
            obtain ⟨io, hio, h⟩ := h
            try dsimp only at h
            rw [optionBind_eq_some] at h
            obtain ⟨tiles, htiles, h⟩ := h
            try dsimp only at h
            rw [optionBind_eq_some] at h
            obtain ⟨ts, hts, h⟩ := h
            try dsimp only at h
            obtain rfl := Option.some_inj.mp h
            obtain rfl := Option.some_inj.mp hio
            simp
        · rw [optionBind_eq_some] at h
          obtain ⟨io, hio, h⟩ := h
          try dsimp only at h
          rw [optionBind_eq_some] at h
          obtain ⟨tiles, htiles, h⟩ := h
          try dsimp only at h
          rw [optionBind_eq_some] at h
          obtain ⟨ts, hts, h⟩ := h
          try dsimp only at h
          obtain rfl := Option.some_inj.mp h
          have htne := compute_in_tiles_nonempty dag bfuel tfuel s.root
            s.num_funcs_scheduled none false tiles htiles
          have hlen := mapM_some_length _ tiles ts hts
          intro hc
          rcases List.append_eq_nil.mp hc with ⟨-, h2⟩
          subst h2
          exact htne (List.length_eq_zero.mp hlen.symm)
theorem beamDrain_inl (dag : FunctionDAG) (rlog : ℚ → ℚ)
    (bfuel tfuel nfuncs : Nat) :
    ∀ fuel pending q s,
      beamDrain dag rlog bfuel tfuel nfuncs fuel pending q = some (.inl s) →
      s.num_funcs_scheduled = nfuncs := by
  intro fuel
  induction fuel with
  | zero =>
    intro pending q s h
    rw [beamDrain] at h
    exact Option.noConfusion h
  | succ fuel ih =>
    intro pending q s h
    rw [beamDrain] at h
    cases hpop : popMinState pending with
    | none =>
      rw [hpop] at h
      exact Sum.noConfusion (Option.some_inj.mp h)
    | some mr =>
      obtain ⟨m, rest⟩ := mr
      rw [hpop] at h
      dsimp only at h
      by_cases hterm : (m.num_funcs_scheduled == nfuncs) = true
      · rw [if_pos hterm] at h
        obtain rfl := Sum.inl.inj (Option.some_inj.mp h)
        simpa using hterm
      · rw [if_neg hterm] at h
        cases hgc : generate_children dag rlog bfuel tfuel m with
        | none => rw [hgc] at h; exact Option.noConfusion h
        | some cs => rw [hgc] at h; exact ih rest (q ++ cs) s h

theorem optimal_schedule_terminal (dag : FunctionDAG) (rlog : ℚ → ℚ)
    (bfuel tfuel beam_size : Nat) :
    ∀ fuel q s,
      optimal_schedule dag rlog bfuel tfuel beam_size fuel q = some s →
      s.num_funcs_scheduled = dag.nodes.length := by
  intro fuel
  induction fuel with
  | zero =>
    intro q s h
    rw [optimal_schedule] at h
    exact Option.noConfusion h
  | succ fuel ih =>
    intro q s h
    rw [optimal_schedule] at h
    try dsimp only at h
    split at h
    · exact Option.noConfusion h
    · rename_i s' heq
      obtain rfl := Option.some_inj.mp h
      exact beamDrain_inl dag rlog bfuel tfuel _ _ _ _ _ heq
    · rename_i q2 heq
      exact ih q2 s h
/-- **C8.** Search progress and termination: `compute_in_tiles` always
returns at least one candidate tree when it succeeds, a successful
`generate_children` call on a non-terminal state (fewer functions
scheduled than DAG nodes) yields at least one successor state, and any
state returned by `optimal_schedule` has every function scheduled. -/
theorem C8_search_progress (dag : FunctionDAG) (rlog : ℚ → ℚ)
    (bfuel tfuel : Nat) :
    (∀ fuel n f parent inr v,
        PSNode.compute_in_tiles dag bfuel fuel n f parent inr = some v →
        v ≠ []) ∧
    (∀ s cs, s.num_funcs_scheduled < dag.nodes.length →
        generate_children dag rlog bfuel tfuel s = some cs → cs ≠ []) ∧
    (∀ beam_size fuel q s,
        optimal_schedule dag rlog bfuel tfuel beam_size fuel q = some s →
        s.num_funcs_scheduled = dag.nodes.length) :=
  ⟨fun fuel n f parent inr v h =>
      compute_in_tiles_nonempty dag bfuel fuel n f parent inr v h,
   fun s cs hnt h => generate_children_nonempty dag rlog bfuel tfuel s cs hnt h,
   fun beam_size fuel q s h =>
      optimal_schedule_terminal dag rlog bfuel tfuel beam_size fuel q s h⟩

theorem C8_search_progress_witness :
    (∃ v, PSNode.compute_in_tiles dagA 5 5 startState.root 0 none false
            = some v ∧ v ≠ []) ∧
    (∃ cs, generate_children dagA (fun _ => 0) 5 5 startState = some cs ∧
            cs ≠ []) ∧
    (∃ s, optimal_schedule dagA (fun _ => 0) 5 5 1 3 [startState] = some s ∧
            s.num_funcs_scheduled = dagA.nodes.length) := by
  refine ⟨?_, ?_, ?_⟩
  · cases hv : PSNode.compute_in_tiles dagA 5 5 startState.root 0 none false with
    | none =>
      have hd : (PSNode.compute_in_tiles dagA 5 5 startState.root 0 none
          false).isSome = true := by decide
      rw [hv] at hd
      simp at hd
    | some v =>
      exact ⟨v, rfl,
        (C8_search_progress dagA (fun _ => 0) 5 5).1 5 startState.root 0
          none false v hv⟩
  · cases hgc : generate_children dagA (fun _ => 0) 5 5 startState with
    | none =>
      have hd : (generate_children dagA (fun _ => 0) 5 5
          startState).isSome = true := by decide
      rw [hgc] at hd
      simp at hd
    | some cs =>
      exact ⟨cs, rfl,
        (C8_search_progress dagA (fun _ => 0) 5 5).2.1 startState cs
          (by decide) hgc⟩
  · cases hos : optimal_schedule dagA (fun _ => 0) 5 5 1 3 [startState] with
    | none =>
      have hd : (optimal_schedule dagA (fun _ => 0) 5 5 1 3
          [startState]).isSome = true := by decide
      rw [hos] at hd
      simp at hd
    | some s =>
      exact ⟨s, rfl,
        (C8_search_progress dagA (fun _ => 0) 5 5).2.2 1 3 [startState] s hos⟩
